import Mathlib

/-!
Verification development for the appliance-PDF ingestion pipeline
(`scripts/ingest_appliance_pdfs.py`).

Strings are modelled as `List Char` (`Str` below).  Python's regex classes
`\s` and `\w` and the `str` predicates are modelled with their ASCII
semantics, which is what the repository's inputs exercise.  Floating-point
ratio comparisons in the source (`uppercase_ratio > 0.65`) are modelled as
exact rational comparisons (`100 * upper > 65 * letters`); for the ranges
reachable in the code (at most 100 letters, since longer paragraphs are
rejected first) the double-precision computation and the exact comparison
agree, because the nearest double to `0.65` differs from `0.65` by less
than `3e-17` while any ratio of naturals with denominator at most 100
differs from `13/20` by at least `1/2000`.
-/

namespace Ingest

abbrev Str := List Char

/-- Python regex `\s` (ASCII): space, tab, newline, carriage return,
vertical tab, form feed. -/
def isPySpace (c : Char) : Bool :=
  c == ' ' || c == '\t' || c == '\n' || c == '\r' || c == '\x0b' || c == '\x0c'

/-- Python regex `\w` (ASCII): alphanumeric or underscore. -/
def isWordChar (c : Char) : Bool :=
  c.isAlphanum || c == '_'

/-- Trailing-whitespace removal (the right half of Python `str.strip()`). -/
def dropTrailWs (s : Str) : Str :=
  (s.reverse.dropWhile isPySpace).reverse

/-- Python `str.strip()`. -/
def stripWs (s : Str) : Str :=
  dropTrailWs (s.dropWhile isPySpace)

/-- State-machine form of `re.sub(r"\s+", " ", line)`: every maximal
whitespace run becomes a single space.  The boolean records whether the
scan is currently inside a run whose space was already emitted. -/
def collapseWsAux : Bool → Str → Str
  | _, [] => []
  | inRun, c :: rest =>
    if isPySpace c then
      if inRun then collapseWsAux true rest
      else ' ' :: collapseWsAux true rest
    else c :: collapseWsAux false rest

def collapseWs (s : Str) : Str := collapseWsAux false s

/-- `raw_text.replace("\r\n", "\n")`. -/
def replaceCRLF : Str → Str
  | [] => []
  | '\r' :: '\n' :: rest => '\n' :: replaceCRLF rest
  | c :: rest => c :: replaceCRLF rest

/-- `.replace("\r", "\n")`. -/
def replaceCR : Str → Str
  | [] => []
  | '\r' :: rest => '\n' :: replaceCR rest
  | c :: rest => c :: replaceCR rest

def unifyNewlines (s : Str) : Str := replaceCR (replaceCRLF s)

/-- Does `rest` (the text following a hyphen) match `\s*\n\s*(?=\w)`?
With a greedy backtracking engine this holds exactly when the maximal
whitespace run at the head of `rest` contains a newline and the first
character after the run is a word character. -/
def hyphApplies (rest : Str) : Bool :=
  (rest.takeWhile isPySpace).contains '\n' &&
    (match rest.dropWhile isPySpace with
     | x :: _ => isWordChar x
     | [] => false)

/-- Scanner for `re.sub(r"(?<=\w)-\s*\n\s*(?=\w)", "", text)`.
`prevW` records whether the previously consumed character of the original
text is a word character (the lookbehind).  `skip` counts characters that
belong to a matched whitespace run and are consumed without being
emitted. -/
def dehyphAux : Bool → Nat → Str → Str
  | _, _ + 1, [] => []
  | _, skip + 1, c :: rest => dehyphAux (isWordChar c) skip rest
  | _, 0, [] => []
  | prevW, 0, c :: rest =>
    if c == '-' && prevW && hyphApplies rest then
      dehyphAux (isWordChar c) (rest.takeWhile isPySpace).length rest
    else
      c :: dehyphAux (isWordChar c) 0 rest

def dehyphenate (s : Str) : Str := dehyphAux false 0 s

/-- Python `text.split("\n")`. -/
def splitNl : Str → List Str
  | [] => [[]]
  | '\n' :: rest => [] :: splitNl rest
  | c :: rest =>
    match splitNl rest with
    | h :: t => (c :: h) :: t
    | [] => [[c]]

/-- Python `text.split("\n\n")` (non-overlapping, left to right). -/
def splitNlNl : Str → List Str
  | [] => [[]]
  | '\n' :: '\n' :: rest => [] :: splitNlNl rest
  | c :: rest =>
    match splitNlNl rest with
    | h :: t => (c :: h) :: t
    | [] => [[c]]

/-- `re.sub(r"\s+", " ", line).strip()` applied to each split line. -/
def cleanLine (line : Str) : Str := stripWs (collapseWs line)

/-- `" ".join(buf)`. -/
def joinSp : List Str → Str
  | [] => []
  | [x] => x
  | x :: y :: rest => x ++ ' ' :: joinSp (y :: rest)

/-- The paragraph grouping loop of `normalize_page_text`: consecutive
non-empty (cleaned) lines are joined with spaces; blank lines separate
paragraphs. -/
def groupParas (buf : List Str) : List Str → List Str
  | [] => if buf.isEmpty then [] else [stripWs (joinSp buf)]
  | line :: rest =>
    if line.isEmpty then
      if buf.isEmpty then groupParas [] rest
      else stripWs (joinSp buf) :: groupParas [] rest
    else groupParas (buf ++ [line]) rest

/-- `"\n\n".join(paragraphs)`. -/
def joinNlNl : List Str → Str
  | [] => []
  | [p] => p
  | p :: q :: rest => p ++ '\n' :: '\n' :: joinNlNl (q :: rest)

/-- `normalize_page_text` from the source. -/
def normalize_page_text (raw_text : Str) : Str :=
  let text := dehyphenate (unifyNewlines raw_text)
  let lines := (splitNl text).map cleanLine
  let paragraphs := groupParas [] lines
  joinNlNl (paragraphs.filter (fun p => !p.isEmpty))

/-- `split_paragraphs` from the source. -/
def split_paragraphs (normalized_text : Str) : List Str :=
  ((splitNlNl normalized_text).map stripWs).filter (fun p => !p.isEmpty)

/-- Python `str.split()` with no separator: maximal non-whitespace runs.
The accumulator holds the current word, reversed. -/
def splitWsAux (cur : Str) : Str → List Str
  | [] => if cur.isEmpty then [] else [cur.reverse]
  | c :: rest =>
    if isPySpace c then
      if cur.isEmpty then splitWsAux [] rest
      else cur.reverse :: splitWsAux [] rest
    else splitWsAux (c :: cur) rest

def splitWs (s : Str) : List Str := splitWsAux [] s

/-- `looks_like_heading` from the source.  Python's `str.isalpha` /
`str.isupper` are modelled by the ASCII `Char.isAlpha` / `Char.isUpper`;
the float comparison `ratio > 0.65` is the exact comparison
`100 * upper > 65 * letters` (see the header note). -/
def looks_like_heading (paragraph : Str) : Bool :=
  let trimmed := stripWs paragraph
  if trimmed.isEmpty || trimmed.length > 100 then false
  else if (splitWs trimmed).length > 12 then false
  else if trimmed.getLast? == some '.' then false
  else
    let letters := trimmed.filter Char.isAlpha
    if letters.isEmpty then false
    else 100 * (letters.filter Char.isUpper).length > 65 * letters.length

/-- `clean_heading` from the source. -/
def clean_heading (paragraph : Str) : Str :=
  let heading := stripWs (collapseWs paragraph)
  if heading.isEmpty then "Overview".data else heading.take 120

/-- `slugify`: `[^a-z0-9]` after lowercasing. -/
def isSlugChar (c : Char) : Bool := ('a' ≤ c && c ≤ 'z') || c.isDigit

/-- `re.sub(r"[^a-z0-9]+", "-", value)`: every maximal run of non-slug
characters becomes a single hyphen. -/
def slugReplaceAux : Bool → Str → Str
  | _, [] => []
  | inRun, c :: rest =>
    if isSlugChar c then c :: slugReplaceAux false rest
    else if inRun then slugReplaceAux true rest
    else '-' :: slugReplaceAux true rest

/-- Python `str.strip("-")`. -/
def stripDashes (s : Str) : Str :=
  ((s.dropWhile (· == '-')).reverse.dropWhile (· == '-')).reverse

/-- `slugify` from the source. -/
def slugify (value : Str) : Str :=
  let slug := stripDashes (slugReplaceAux false (value.map Char.toLower))
  if slug.isEmpty then "manual".data else slug.take 56

structure PageRecord where
  page_number : Nat
  text : Str
  paragraphs : List Str
  word_count : Nat
deriving DecidableEq, Repr

structure TokenRecord where
  word : Str
  page_number : Nat
  -- `section` is a Lean keyword, hence the field name `sectionLabel`.
  sectionLabel : Str
deriving DecidableEq, Repr

structure ChunkRecord where
  chunk_index : Nat
  sectionLabel : Str
  page_start : Nat
  page_end : Nat
  token_count : Nat
  content : Str
deriving DecidableEq, Repr

/-- The inner paragraph loop of `build_token_stream` for one page,
threading the mutable `current_section`. -/
def pageTokens (pageNum : Nat) : Str → List Str → Str × List TokenRecord
  | current, [] => (current, [])
  | current, paragraph :: rest =>
    if looks_like_heading paragraph then
      pageTokens pageNum (clean_heading paragraph) rest
    else
      let words := (splitWs paragraph).filter (fun w => !w.isEmpty)
      let toks := words.map fun w =>
        { word := w, page_number := pageNum, sectionLabel := current : TokenRecord }
      let (c, ts) := pageTokens pageNum current rest
      (c, toks ++ ts)

def tokenStreamAux : Str → List PageRecord → List TokenRecord
  | _, [] => []
  | current, page :: rest =>
    let (c, ts) := pageTokens page.page_number current page.paragraphs
    ts ++ tokenStreamAux c rest

/-- `build_token_stream` from the source (`current_section` starts as
`"Overview"`). -/
def build_token_stream (pages : List PageRecord) : List TokenRecord :=
  tokenStreamAux "Overview".data pages

/-- Distinct keys in first-encounter order (the insertion order of a
Python `Counter`). -/
def keysAux (seen : List Str) : List Str → List Str
  | [] => []
  | x :: rest =>
    if x ∈ seen then keysAux seen rest
    else x :: keysAux (x :: seen) rest

/-- `Counter(sections).most_common(1)[0][0]` with the `"Overview"`
fallback for an empty counter: `most_common` sorts by count descending
with a stable sort, so ties resolve to the first-encountered key. -/
def most_common_section (sections : List Str) : Str :=
  match keysAux [] sections with
  | [] => "Overview".data
  | k :: ks =>
    ks.foldl (fun best k' =>
      if sections.count k' > sections.count best then k' else best) k

/-- `" ".join(token.word for token in window).strip()`. -/
def windowContent (window : List TokenRecord) : Str :=
  stripWs (joinSp (window.map TokenRecord.word))

/-- One iteration of the `build_chunks` while-loop, operating on the
suffix `tokens[cursor:]`.  `fuel` bounds the iteration count (the loop
advances the cursor by `step ≥ 1` each round, so `tokens.length` rounds
suffice); it is an embedding device only. -/
def buildChunksAux (maxW step : Nat) : Nat → List TokenRecord → Nat → List ChunkRecord
  | _, [], _ => []
  | 0, _ :: _, _ => []
  | fuel + 1, t :: ts, idx =>
    let window := (t :: ts).take maxW
    if window.isEmpty then []
    else
      let content := windowContent window
      let sections := (window.map TokenRecord.sectionLabel).filter (fun s => !s.isEmpty)
      let chunk : ChunkRecord :=
        { chunk_index := idx
          sectionLabel := if sections.isEmpty then "Overview".data else most_common_section sections
          page_start := (window.headD t).page_number
          page_end := (window.getLastD t).page_number
          token_count := window.length
          content := content }
      if content.isEmpty then
        if (t :: ts).length ≤ maxW then []
        else buildChunksAux maxW step fuel ((t :: ts).drop step) idx
      else
        chunk ::
          (if (t :: ts).length ≤ maxW then []
           else buildChunksAux maxW step fuel ((t :: ts).drop step) (idx + 1))

/-- `build_chunks` from the source. -/
def build_chunks (tokens : List TokenRecord) (max_words overlap_words : Nat) : List ChunkRecord :=
  if tokens.isEmpty then []
  else buildChunksAux max_words (max 1 (max_words - overlap_words)) tokens.length tokens 1

/-- `chunk_status` from the source; the float test
`len(low)/page_count > 0.20` is the exact comparison
`5 * low > page_count` (with `ratio = 1.0` when `page_count = 0`). -/
def chunk_status (page_count : Nat) (low_text_count : Nat) (chunk_count : Nat) : Str :=
  if chunk_count = 0 then "failed".data
  else if (if page_count = 0 then true else 5 * low_text_count > page_count)
          || chunk_count < 3 then "partial".data
  else "ready".data

/-- The decimal digit characters. -/
def digitChar : Nat → Char
  | 0 => '0' | 1 => '1' | 2 => '2' | 3 => '3' | 4 => '4'
  | 5 => '5' | 6 => '6' | 7 => '7' | 8 => '8' | _ => '9'

/-- Decimal rendering of a natural number (Python `str(n)` / f-string
interpolation).  The fuel argument is an embedding device; `n + 1` steps
always suffice. -/
def natToStrAux : Nat → Nat → Str
  | 0, _ => []
  | fuel + 1, n =>
    if n < 10 then [digitChar n]
    else natToStrAux fuel (n / 10) ++ [digitChar (n % 10)]

def natToStr (n : Nat) : Str := natToStrAux (n + 1) n

/-- The chunk dedup key:
`f"{doc_slug}:v{version}:p{page_start}-{page_end}:c{chunk_index}"`. -/
def sourceRefStr (doc_slug : Str) (version page_start page_end chunk_index : Nat) : Str :=
  doc_slug ++ ":v".data ++ natToStr version ++ ":p".data ++ natToStr page_start
    ++ "-".data ++ natToStr page_end ++ ":c".data ++ natToStr chunk_index

structure DocumentMetadata where
  title : Str
  brand : Option Str
  model : Option Str
  product_domain : Str
deriving DecidableEq, Repr

/-- A row of the `manual_documents` table. -/
structure DocRow where
  id : Nat
  source_key : Str
  source_filename : Str
  source_sha256 : Str
  version : Nat
  title : Str
  product_domain : Str
  brand : Option Str
  model : Option Str
  page_count : Nat
  extracted_word_count : Nat
  extraction_status : Str
  extraction_warnings : List Str
  is_active : Bool
deriving DecidableEq, Repr

/-- A row of the `manual_chunks` table (the external embedding vector is
not modelled; it never influences control flow or the claims). -/
structure ChunkRow where
  product_domain : Str
  brand : Option Str
  model : Option Str
  sectionLabel : Str
  source_ref : Str
  content : Str
  document_id : Nat
  chunk_index : Nat
  page_start : Nat
  page_end : Nat
  token_count : Nat
deriving DecidableEq, Repr

/-- The persistent store: the two relations plus a fresh-id counter
(Supabase generates row ids; inserts take the next id). -/
structure DB where
  docs : List DocRow
  chunks : List ChunkRow
  nextId : Nat
deriving DecidableEq, Repr

/-- `get_existing_doc_for_hash`: first row matching `source_key` and
`source_sha256` (the `limit 1` query in list order). -/
def get_existing_doc_for_hash (db : DB) (source_key source_sha256 : Str) : Option DocRow :=
  db.docs.find? fun r => r.source_key == source_key && r.source_sha256 == source_sha256

/-- `get_next_version`: max existing version for the source_key plus one,
`1` when no row exists (`order version desc limit 1`). -/
def get_next_version (db : DB) (source_key : Str) : Nat :=
  match (db.docs.filter (fun r => r.source_key == source_key)).map DocRow.version with
  | [] => 1
  | v :: vs => vs.foldl max v + 1

/-- `insert_document_row`: a new row with `is_active = False`; returns the
generated id. -/
def insert_document_row (db : DB) (source_key source_filename source_sha256 : Str)
    (version : Nat) (metadata : DocumentMetadata) (page_count extracted_word_count : Nat)
    (status : Str) (warnings : List Str) : DB × Nat :=
  ({ db with
      docs := db.docs ++
        [{ id := db.nextId
           source_key := source_key
           source_filename := source_filename
           source_sha256 := source_sha256
           version := version
           title := metadata.title
           product_domain := metadata.product_domain
           brand := metadata.brand
           model := metadata.model
           page_count := page_count
           extracted_word_count := extracted_word_count
           extraction_status := status
           extraction_warnings := warnings
           is_active := false }]
      nextId := db.nextId + 1 },
   db.nextId)

/-- `update_document_row`: update by id (id, source_key, source hash,
filename and version are not in the payload and stay unchanged). -/
def update_document_row (db : DB) (document_id : Nat) (metadata : DocumentMetadata)
    (page_count extracted_word_count : Nat) (status : Str) (warnings : List Str)
    (is_active : Bool) : DB :=
  { db with
      docs := db.docs.map fun r =>
        if r.id == document_id then
          { r with
              title := metadata.title
              product_domain := metadata.product_domain
              brand := metadata.brand
              model := metadata.model
              page_count := page_count
              extracted_word_count := extracted_word_count
              extraction_status := status
              extraction_warnings := warnings
              is_active := is_active }
        else r }

/-- `deactivate_other_versions`: every currently active row of the same
source_key other than the current document becomes inactive. -/
def deactivate_other_versions (db : DB) (source_key : Str) (current_document_id : Nat) : DB :=
  { db with
      docs := db.docs.map fun r =>
        if r.source_key == source_key && r.id != current_document_id && r.is_active then
          { r with is_active := false }
        else r }

/-- `replace_chunks_for_document`: delete all chunk rows of the document. -/
def replace_chunks_for_document (db : DB) (document_id : Nat) : DB :=
  { db with chunks := db.chunks.filter fun c => c.document_id != document_id }

/-- One row of a chunk upsert with `on_conflict="source_ref"`: replace the
row with the same dedup key if present, insert otherwise. -/
def upsert_chunk_row (db : DB) (row : ChunkRow) : DB :=
  if db.chunks.any (fun c => c.source_ref == row.source_ref) then
    { db with chunks := db.chunks.map fun c => if c.source_ref == row.source_ref then row else c }
  else
    { db with chunks := db.chunks ++ [row] }

/-- `split_batches` (`range(0, len(items), batch_size)`); the fuel is an
embedding device, `items.length` steps always suffice for a positive
`batch_size`. -/
def splitBatchesAux (batch_size : Nat) : Nat → List α → List (List α)
  | _, [] => []
  | 0, _ :: _ => []
  | fuel + 1, x :: xs =>
    (x :: xs).take batch_size :: splitBatchesAux batch_size fuel ((x :: xs).drop batch_size)

def split_batches (items : List α) (batch_size : Nat) : List (List α) :=
  if batch_size = 0 then [] else splitBatchesAux batch_size items.length items

/-- `upsert_chunk_rows`: upsert batch by batch. -/
def upsert_chunk_rows (db : DB) (rows : List ChunkRow) (batch_size : Nat) : DB :=
  (split_batches rows batch_size).foldl (fun d batch => batch.foldl upsert_chunk_row d) db

/-- The chunk-payload construction loop of `main` (the embedding vector is
produced by the external collaborator and not modelled). -/
def mkChunkPayloads (doc_slug : Str) (version : Nat) (metadata : DocumentMetadata)
    (document_id : Nat) (chunks : List ChunkRecord) : List ChunkRow :=
  chunks.map fun c =>
    { product_domain := metadata.product_domain
      brand := metadata.brand
      model := metadata.model
      sectionLabel := c.sectionLabel
      source_ref := sourceRefStr doc_slug version c.page_start c.page_end c.chunk_index
      content := c.content
      document_id := document_id
      chunk_index := c.chunk_index
      page_start := c.page_start
      page_end := c.page_end
      token_count := c.token_count }

/-- `",".join(...)`. -/
def joinComma : List Str → Str
  | [] => []
  | [x] => x
  | x :: y :: rest => x ++ ',' :: joinComma (y :: rest)

/-- The f-string building the low-text warning. -/
def lowTextWarning (low_text_pages : List Nat) : Str :=
  "low_text_pages<40: ".data ++ joinComma (low_text_pages.map natToStr)

/-- A source document as seen by the per-source loop of `main`: its
source_key (path relative to the repo root), filename stem and name, its
content hash, the extracted pages (`extract_page_records`, an external
text-extraction collaborator) and the inferred metadata
(`build_metadata`). -/
structure SourceDoc where
  source_key : Str
  stem : Str
  source_filename : Str
  source_sha256 : Str
  pages : List PageRecord
  metadata : DocumentMetadata
deriving DecidableEq, Repr

structure IngestConfig where
  force : Bool
  chunkWords : Nat
  overlapWords : Nat
  upsertBatchSize : Nat
deriving DecidableEq, Repr

/-- The database calls the per-source loop of `main` can issue, in the
order it issues them. -/
inductive DbOp
  | opReplaceChunks (document_id : Nat)
  | opUpdateDoc (document_id : Nat) (metadata : DocumentMetadata)
      (page_count extracted_word_count : Nat) (status : Str) (warnings : List Str)
      (is_active : Bool)
  | opInsertDoc (source_key source_filename source_sha256 : Str) (version : Nat)
      (metadata : DocumentMetadata) (page_count extracted_word_count : Nat)
      (status : Str) (warnings : List Str)
  | opUpsertChunks (rows : List ChunkRow)
  | opDeactivateOthers (source_key : Str) (current_document_id : Nat)
deriving DecidableEq, Repr

def applyOp (db : DB) : DbOp → DB
  | .opReplaceChunks i => replace_chunks_for_document db i
  | .opUpdateDoc i md pc wc st ws act => update_document_row db i md pc wc st ws act
  | .opInsertDoc k f s v md pc wc st ws => (insert_document_row db k f s v md pc wc st ws).1
  | .opUpsertChunks rows => rows.foldl upsert_chunk_row db
  | .opDeactivateOthers k i => deactivate_other_versions db k i

def applyOps (db : DB) (ops : List DbOp) : DB := ops.foldl applyOp db

/-- How the run for one source ends. -/
inductive Outcome
  | skipped
  | noChunks (document_id : Nat)
  | committed (document_id version : Nat)
deriving DecidableEq, Repr

/-- The local values the per-source loop of `main` computes for one
source: its chunks, page count, extracted word count, low-text pages,
warnings and extraction status. -/
def srcChunks (src : SourceDoc) (cfg : IngestConfig) : List ChunkRecord :=
  build_chunks (build_token_stream src.pages) cfg.chunkWords cfg.overlapWords

def srcPageCount (src : SourceDoc) : Nat := src.pages.length

def srcWordCount (src : SourceDoc) : Nat :=
  (src.pages.map PageRecord.word_count).foldl (· + ·) 0

def srcLowTextPages (src : SourceDoc) : List Nat :=
  (src.pages.filter (fun p => p.word_count < 40)).map PageRecord.page_number

def srcWarnings (src : SourceDoc) : List Str :=
  if (srcLowTextPages src).isEmpty then [] else [lowTextWarning (srcLowTextPages src)]

def srcStatus (src : SourceDoc) (cfg : IngestConfig) : Str :=
  chunk_status (srcPageCount src) (srcLowTextPages src).length (srcChunks src cfg).length

/-- The chunk rows built for one committed source. -/
def srcPayloads (src : SourceDoc) (cfg : IngestConfig) (document_id version : Nat) :
    List ChunkRow :=
  mkChunkPayloads (slugify src.stem) version src.metadata document_id (srcChunks src cfg)

/-- The body of the per-source loop of `main` after the skip check: the
pure computations plus the ordered list of database calls it issues.
All reads (`get_existing_doc_for_hash`, `get_next_version`) happen before
any write for the source, so the trace is a function of the initial
database state. -/
def sourceBody (db : DB) (src : SourceDoc) (cfg : IngestConfig)
    (existing : Option DocRow) : List DbOp × Outcome :=
  let prep : List DbOp × Nat × Nat :=
    match existing with
    | some row =>
      ([DbOp.opReplaceChunks row.id,
        DbOp.opUpdateDoc row.id src.metadata (srcPageCount src) (srcWordCount src)
          (srcStatus src cfg) (srcWarnings src) false],
       row.id, row.version)
    | none =>
      ([DbOp.opInsertDoc src.source_key src.source_filename src.source_sha256
          (get_next_version db src.source_key) src.metadata (srcPageCount src)
          (srcWordCount src) (srcStatus src cfg) (srcWarnings src)],
       db.nextId, get_next_version db src.source_key)
  if (srcChunks src cfg).isEmpty then
    (prep.1 ++
       [DbOp.opUpdateDoc prep.2.1 src.metadata (srcPageCount src) (srcWordCount src)
          "failed".data (srcWarnings src ++ ["no_usable_chunks".data]) false],
     .noChunks prep.2.1)
  else
    (prep.1 ++
       (split_batches (srcPayloads src cfg prep.2.1 prep.2.2) cfg.upsertBatchSize).map
         DbOp.opUpsertChunks ++
       [DbOp.opDeactivateOthers src.source_key prep.2.1,
        DbOp.opUpdateDoc prep.2.1 src.metadata (srcPageCount src) (srcWordCount src)
          (srcStatus src cfg) (srcWarnings src) true],
     .committed prep.2.1 prep.2.2)

/-- The per-source loop of `main` for one source (non-dry run): hash
lookup, skip check, then the body. -/
def sourceTrace (db : DB) (src : SourceDoc) (cfg : IngestConfig) : List DbOp × Outcome :=
  match get_existing_doc_for_hash db src.source_key src.source_sha256 with
  | some row =>
    if row.is_active && !cfg.force then ([], .skipped)
    else sourceBody db src cfg (some row)
  | none => sourceBody db src cfg none

/-- The database state after processing one source. -/
def processSource (db : DB) (src : SourceDoc) (cfg : IngestConfig) : DB × Outcome :=
  ((sourceTrace db src cfg).1.foldl applyOp db, (sourceTrace db src cfg).2)

/-- The dedup keys carried by the chunk upserts of a trace. -/
def traceRefs (ops : List DbOp) : List Str :=
  ((ops.filterMap fun op =>
      match op with
      | .opUpsertChunks rows => some rows
      | _ => none).flatten).map ChunkRow.source_ref

/-! ### Spec-side definitions

These definitions follow the wording of the specification (not the code)
and exist only to be compared with the code-side definitions above. -/

/-- The heading predicate as the spec states it, parameterised by the set
of characters read as "a sentence terminator": non-empty after trimming,
at most 100 characters, at most 12 words, not ending with a terminator,
and an uppercase ratio among its letters exceeding 0.65 (a paragraph with
no letters is not a heading). -/
def headingSpecWith (terminators : List Char) (paragraph : Str) : Bool :=
  let t := stripWs paragraph
  !t.isEmpty && decide (t.length ≤ 100) && decide ((splitWs t).length ≤ 12) &&
    !(match t.getLast? with
      | some c => terminators.contains c
      | none => false) &&
    (let letters := t.filter Char.isAlpha
     !letters.isEmpty &&
       decide (100 * (letters.filter Char.isUpper).length > 65 * letters.length))

/-! ### C10: the dedup key is not injective across source_keys -/

/-- C10: the chunk dedup key is not injective across source_keys: the two
distinct source_keys `appliance_docs/WX 100.pdf` and `manuals/WX-100.pdf`
have distinct stems `WX 100` and `WX-100`, yet those stems slugify to the
same value, so chunks with equal version, page span and chunk_index get
the identical `source_ref` — the key is built from the slugified filename
stem, not from the full source_key. -/
theorem c10_source_ref_not_injective :
    ("appliance_docs/WX 100.pdf".data ≠ ("manuals/WX-100.pdf".data : Str)) ∧
    ("WX 100".data ≠ ("WX-100".data : Str)) ∧
    slugify "WX 100".data = slugify "WX-100".data ∧
    sourceRefStr (slugify "WX 100".data) 1 1 2 3 =
      sourceRefStr (slugify "WX-100".data) 1 1 2 3 := by
  decide

/-! ### C8: the worked end-to-end example -/

/-- The page text of the spec's end-to-end example. -/
def c8Text : Str := "SAFETY WARNING\n\nDo not operate without cover.".data

/-- The example page: its text is already in normalized form (checked in
the theorems below) and its paragraph list and word count are derived the
way `extract_page_records` derives them. -/
def c8Page : PageRecord :=
  { page_number := 1
    text := c8Text
    paragraphs := split_paragraphs c8Text
    word_count := (splitWs c8Text).length }

def c8Chunks : List ChunkRecord :=
  build_chunks (build_token_stream [c8Page]) 5 1

/-- C8, counterexample: on the example page the windower does produce a
single chunk spanning page 1 only, but that chunk has 5 tokens (the claim
says 4) and its section is the verbatim heading `"SAFETY WARNING"`
(`clean_heading` never title-cases), not `"Safety Warning"`. -/
theorem c8_counterexample :
    normalize_page_text c8Text = c8Text ∧
    c8Chunks.length = 1 ∧
    c8Chunks.map ChunkRecord.token_count ≠ [4] ∧
    c8Chunks.map ChunkRecord.sectionLabel ≠ ["Safety Warning".data] := by
  decide

/-- C8, amended: tokenizing and windowing the example page with
`max_words = 5`, `overlap_words = 1` produces exactly one chunk of 5
tokens (`"Do not operate without cover."`), tagged with section
`"SAFETY WARNING"` and `page_start = page_end = 1`. -/
theorem c8_example_chunks :
    c8Chunks =
      [{ chunk_index := 1
         sectionLabel := "SAFETY WARNING".data
         page_start := 1
         page_end := 1
         token_count := 5
         content := "Do not operate without cover.".data }] := by
  decide

/-! ### C7: the heading heuristic -/

/-- C7, counterexample: the claim reads "does not end with a sentence
terminator", but the code only rejects a trailing period.  The paragraph
`"OK!"` ends with the sentence terminator `'!'`, so the claimed
characterisation says it is not a heading, yet `looks_like_heading`
accepts it. -/
theorem c7_counterexample :
    looks_like_heading "OK!".data = true ∧
    headingSpecWith ['.', '!', '?'] "OK!".data = false := by
  decide

/-- C7, amended: a paragraph is classified as a heading iff it is
non-empty after trimming, at most 100 characters, at most 12 words, does
not end with a period (the only sentence terminator the code checks), and
the uppercase ratio among its alphabetic characters exceeds 0.65 (no
letters means not a heading); in particular `"INSTALLATION GUIDE"` is a
heading and `"Please install the unit according to the instructions."` is
not. -/
theorem c7_heading_characterisation :
    (∀ p : Str, looks_like_heading p = headingSpecWith ['.'] p) ∧
    looks_like_heading "INSTALLATION GUIDE".data = true ∧
    looks_like_heading "Please install the unit according to the instructions.".data
      = false := by
  refine ⟨fun p => ?_, by decide, by decide⟩
  unfold looks_like_heading headingSpecWith
  by_cases h0 : (stripWs p).isEmpty
  · simp [h0]
  · by_cases h1 : (stripWs p).length > 100
    · simp [h0, h1, Nat.not_le.mpr h1]
    · by_cases h2 : (splitWs (stripWs p)).length > 12
      · simp [h0, h1, h2, Nat.not_le.mpr h2, Nat.le_of_not_lt h1]
      · by_cases h3 : (stripWs p).getLast? = some '.'
        · simp [h0, h1, h2, h3, Nat.le_of_not_lt h1, Nat.le_of_not_lt h2]
        · by_cases h4 : ((stripWs p).filter Char.isAlpha).isEmpty
          · simp [h0, h1, h2, h3, h4, Nat.le_of_not_lt h1, Nat.le_of_not_lt h2]
          · simp [h0, h1, h2, h3, h4, Nat.le_of_not_lt h1, Nat.le_of_not_lt h2]
            cases hl : (stripWs p).getLast? <;> simp_all

/-! ### C3: the chunk windower -/

/-- A token word as produced by `str.split()`: non-empty, no whitespace. -/
def isGoodWord (w : Str) : Bool := !w.isEmpty && w.all fun c => !isPySpace c

lemma stripWs_eq_nil_imp {l : Str} (h : stripWs l = []) : ∀ c ∈ l, isPySpace c = true := by
  intro c hc
  unfold stripWs dropTrailWs at h
  have h1 : (l.dropWhile isPySpace).reverse.dropWhile isPySpace = [] := by
    have := congrArg List.reverse h
    simpa using this
  rw [List.dropWhile_eq_nil_iff] at h1
  by_contra hcs
  have hcd : c ∈ l.dropWhile isPySpace := by
    have hsplit := List.takeWhile_append_dropWhile isPySpace l
    rcases List.mem_append.mp (by rw [hsplit]; exact hc) with h' | h'
    · exact absurd (List.mem_takeWhile_imp h') hcs
    · exact h'
  exact hcs (h1 c (List.mem_reverse.mpr hcd))

lemma stripWs_ne_nil {l : Str} {c : Char} (hc : c ∈ l) (hcs : isPySpace c = false) :
    stripWs l ≠ [] := by
  intro h
  have := stripWs_eq_nil_imp h c hc
  simp [this] at hcs

lemma joinSp_cons_decomp (w : Str) (rest : List Str) :
    ∃ t, joinSp (w :: rest) = w ++ t := by
  cases rest with
  | nil => exact ⟨[], by simp [joinSp]⟩
  | cons y r => exact ⟨' ' :: joinSp (y :: r), by simp [joinSp]⟩

lemma windowContent_ne_nil {window : List TokenRecord}
    (hw : window ≠ []) (hg : ∀ t ∈ window, isGoodWord t.word = true) :
    windowContent window ≠ [] := by
  rcases window with _ | ⟨t, ts⟩
  · exact absurd rfl hw
  · have hgw := hg t (by simp)
    unfold isGoodWord at hgw
    rcases hword : t.word with _ | ⟨c, w'⟩
    · rw [hword] at hgw; simp at hgw
    · have hcs : isPySpace c = false := by
        rw [hword] at hgw
        simp [List.all_cons] at hgw
        simpa using hgw.1
      unfold windowContent
      rcases joinSp_cons_decomp t.word ((t :: ts).tail.map TokenRecord.word) with ⟨tail, hj⟩
      have : joinSp ((t :: ts).map TokenRecord.word) = t.word ++ tail := by
        simpa using hj
      apply @stripWs_ne_nil _ c _ hcs
      rw [this, hword]
      simp


/-- The spec's chunk-count formula `ceil(max(L - O, 1) / (W - O))`. -/
def chunkCountFormula (L W O : Nat) : Nat := (max (L - O) 1 + (W - O) - 1) / (W - O)

lemma chunkCountFormula_le {L W O : Nat} (hO : O < W) (hLW : L ≤ W) :
    chunkCountFormula L W O = 1 := by
  unfold chunkCountFormula
  apply Nat.div_eq_of_lt_le <;> omega

lemma chunkCountFormula_step {L W O : Nat} (hO : O < W) (hLW : W < L) :
    chunkCountFormula L W O = 1 + chunkCountFormula (L - (W - O)) W O := by
  unfold chunkCountFormula
  have hs : 0 < W - O := by omega
  have h1 : max (L - O) 1 = L - O := by omega
  have h2 : max (L - (W - O) - O) 1 = L - (W - O) - O := by omega
  rw [h1, h2]
  have e1 : L - O + (W - O) - 1 = (L - O - 1) + (W - O) := by omega
  have e2 : L - (W - O) - O + (W - O) - 1 = L - O - 1 := by omega
  rw [e1, e2, Nat.add_div_right _ hs, Nat.add_comm]

lemma buildChunksAux_spec {W O : Nat} (hO : O < W) :
    ∀ fuel (ts : List TokenRecord) idx, ts ≠ [] → ts.length ≤ fuel →
      (∀ t ∈ ts, isGoodWord t.word = true) →
      (buildChunksAux W (W - O) fuel ts idx).length = chunkCountFormula ts.length W O ∧
      (buildChunksAux W (W - O) fuel ts idx).map ChunkRecord.chunk_index =
        List.range' idx (buildChunksAux W (W - O) fuel ts idx).length ∧
      ∀ c ∈ buildChunksAux W (W - O) fuel ts idx, c.token_count ≤ W := by
  intro fuel
  induction fuel with
  | zero =>
    intro ts idx hne hlen
    rcases ts with _ | ⟨t, ts⟩
    · exact absurd rfl hne
    · simp at hlen
  | succ fuel ih =>
    intro ts idx hne hlen hgood
    rcases ts with _ | ⟨t, ts⟩
    · exact absurd rfl hne
    obtain ⟨W', rfl⟩ : ∃ W', W = W' + 1 := ⟨W - 1, by omega⟩
    have hwne : ((t :: ts).take (W' + 1)).isEmpty = false := by
      simp [List.take_succ_cons]
    have hgw : ∀ x ∈ (t :: ts).take (W' + 1), isGoodWord x.word = true :=
      fun x hx => hgood x (List.mem_of_mem_take hx)
    have hcne : (windowContent ((t :: ts).take (W' + 1))).isEmpty = false := by
      have := @windowContent_ne_nil ((t :: ts).take (W' + 1))
        (by simp [List.take_succ_cons]) hgw
      simpa [List.isEmpty_iff] using this
    have hlc : (t :: ts).length = ts.length + 1 := by simp
    by_cases hstop : (t :: ts).length ≤ W' + 1
    · simp only [buildChunksAux, hwne, hcne, hstop, if_true, if_false, Bool.false_eq_true]
      refine ⟨?_, ?_, ?_⟩
      · rw [chunkCountFormula_le hO hstop]; simp
      · simp [List.range']
      · intro c hc
        simp only [List.mem_singleton] at hc
        subst hc
        simp
    · have hlt : W' + 1 < (t :: ts).length := by omega
      have hdne : (t :: ts).drop (W' + 1 - O) ≠ [] := by
        intro h
        have h2 := congrArg List.length h
        rw [List.length_drop] at h2
        simp only [List.length_nil] at h2
        omega
      have hdlen : ((t :: ts).drop (W' + 1 - O)).length ≤ fuel := by
        rw [List.length_drop]
        omega
      have hdgood : ∀ x ∈ (t :: ts).drop (W' + 1 - O), isGoodWord x.word = true :=
        fun x hx => hgood x (List.mem_of_mem_drop hx)
      obtain ⟨ihlen, ihidx, ihtok⟩ := ih ((t :: ts).drop (W' + 1 - O)) (idx + 1) hdne hdlen hdgood
      simp only [buildChunksAux, hwne, hcne, hstop, if_false, Bool.false_eq_true]
      refine ⟨?_, ?_, ?_⟩
      · rw [List.length_cons, ihlen, chunkCountFormula_step hO hlt, List.length_drop]
        omega
      · simp only [List.map_cons, ihidx, List.length_cons]
        rfl
      · intro c hc
        rcases List.mem_cons.mp hc with hc | hc
        · subst hc
          simp
        · exact ihtok c hc


/-- C3: for every token stream (tokens carry the non-empty,
whitespace-free words produced by `str.split()`) and window/overlap sizes
with `0 ≤ O < W`: the windower emits no chunks for the empty stream and
exactly `ceil(max(L - O, 1) / (W - O))` chunks for a stream of length
`L > 0`; the emitted `chunk_index` values are exactly `1..N` (strictly
increasing and contiguous from 1), and every chunk has
`token_count ≤ W`. -/
theorem c3_chunk_windower (tokens : List TokenRecord) (W O : Nat) (hO : O < W)
    (hgood : ∀ t ∈ tokens, isGoodWord t.word = true) :
    (build_chunks ([] : List TokenRecord) W O = []) ∧
    (tokens ≠ [] →
      (build_chunks tokens W O).length = (max (tokens.length - O) 1 + (W - O) - 1) / (W - O)) ∧
    ((build_chunks tokens W O).map ChunkRecord.chunk_index =
      List.range' 1 (build_chunks tokens W O).length) ∧
    ∀ c ∈ build_chunks tokens W O, c.token_count ≤ W := by
  have hmax : max 1 (W - O) = W - O := by omega
  refine ⟨by simp [build_chunks], ?_⟩
  rcases tokens with _ | ⟨t, ts⟩
  · simp [build_chunks]
  · have h := buildChunksAux_spec hO (t :: ts).length (t :: ts) 1 (by simp)
      (Nat.le_refl _) hgood
    unfold build_chunks
    rw [hmax]
    simp only [List.isEmpty_cons, Bool.false_eq_true, if_false]
    exact ⟨fun _ => h.1, h.2.1, h.2.2⟩

def c3wTokens : List TokenRecord :=
  [⟨"Do".data, 1, "Overview".data⟩, ⟨"not".data, 1, "Overview".data⟩,
   ⟨"operate".data, 2, "Overview".data⟩]

/-- Witness for `c3_chunk_windower` at a concrete three-token stream with
`W = 2`, `O = 1`. -/
theorem c3_chunk_windower_witness :
    (build_chunks ([] : List TokenRecord) 2 1 = []) ∧
    (c3wTokens ≠ [] →
      (build_chunks c3wTokens 2 1).length = (max (c3wTokens.length - 1) 1 + (2 - 1) - 1) / (2 - 1)) ∧
    ((build_chunks c3wTokens 2 1).map ChunkRecord.chunk_index =
      List.range' 1 (build_chunks c3wTokens 2 1).length) ∧
    ∀ c ∈ build_chunks c3wTokens 2 1, c.token_count ≤ 2 :=
  c3_chunk_windower c3wTokens 2 1 (by decide) (by decide)


/-! ### Reconciler state lemmas -/

lemma applyOps_append (db : DB) (a b : List DbOp) :
    applyOps db (a ++ b) = applyOps (applyOps db a) b := by
  unfold applyOps
  exact List.foldl_append ..

lemma upsert_chunk_row_docs (db : DB) (row : ChunkRow) :
    (upsert_chunk_row db row).docs = db.docs := by
  unfold upsert_chunk_row
  split <;> rfl

lemma upsert_chunk_row_nextId (db : DB) (row : ChunkRow) :
    (upsert_chunk_row db row).nextId = db.nextId := by
  unfold upsert_chunk_row
  split <;> rfl

lemma upsert_fold_docs (rows : List ChunkRow) (db : DB) :
    (rows.foldl upsert_chunk_row db).docs = db.docs := by
  induction rows generalizing db with
  | nil => rfl
  | cons r rows ih => rw [List.foldl_cons, ih, upsert_chunk_row_docs]

lemma upsert_fold_nextId (rows : List ChunkRow) (db : DB) :
    (rows.foldl upsert_chunk_row db).nextId = db.nextId := by
  induction rows generalizing db with
  | nil => rfl
  | cons r rows ih => rw [List.foldl_cons, ih, upsert_chunk_row_nextId]

lemma upsert_batches_docs (batches : List (List ChunkRow)) (db : DB) :
    (applyOps db (batches.map DbOp.opUpsertChunks)).docs = db.docs := by
  induction batches generalizing db with
  | nil => rfl
  | cons b bs ih =>
    simp only [List.map_cons]
    unfold applyOps
    rw [List.foldl_cons]
    have : applyOp db (DbOp.opUpsertChunks b) = b.foldl upsert_chunk_row db := rfl
    rw [this]
    have h2 := ih (b.foldl upsert_chunk_row db)
    unfold applyOps at h2
    rw [h2, upsert_fold_docs]

lemma upsert_batches_nextId (batches : List (List ChunkRow)) (db : DB) :
    (applyOps db (batches.map DbOp.opUpsertChunks)).nextId = db.nextId := by
  induction batches generalizing db with
  | nil => rfl
  | cons b bs ih =>
    simp only [List.map_cons]
    unfold applyOps
    rw [List.foldl_cons]
    have : applyOp db (DbOp.opUpsertChunks b) = b.foldl upsert_chunk_row db := rfl
    rw [this]
    have h2 := ih (b.foldl upsert_chunk_row db)
    unfold applyOps at h2
    rw [h2, upsert_fold_nextId]

/-- `find?` over the document table commutes with per-row maps that keep
the key and the hash. -/
lemma find?_docs_map (f : DocRow → DocRow)
    (hkey : ∀ r, (f r).source_key = r.source_key)
    (hsha : ∀ r, (f r).source_sha256 = r.source_sha256)
    (l : List DocRow) (k s : Str) :
    (l.map f).find? (fun r => r.source_key == k && r.source_sha256 == s)
      = (l.find? (fun r => r.source_key == k && r.source_sha256 == s)).map f := by
  rw [List.find?_map]
  have hfun : ((fun r : DocRow => r.source_key == k && r.source_sha256 == s) ∘ f)
      = (fun r : DocRow => r.source_key == k && r.source_sha256 == s) := by
    funext r
    simp [Function.comp, hkey, hsha]
  rw [hfun]

/-- C5, first half in raw form: hash-unchanged active and not forced means
no ops and a skip. -/
lemma skip_of_active (db : DB) (src : SourceDoc) (cfg : IngestConfig) (r : DocRow)
    (hfind : get_existing_doc_for_hash db src.source_key src.source_sha256 = some r)
    (hact : r.is_active = true) (hforce : cfg.force = false) :
    sourceTrace db src cfg = ([], .skipped) := by
  unfold sourceTrace
  rw [hfind]
  simp [hact, hforce]



/-- Everything a committed run determines: the chunks are non-empty, the
trace ends with the deactivate/activate pair preceded by the chunk
upserts, and the document id and version come from the matched row (hash
found) or from a fresh insert (no row). -/
lemma committed_inversion (db : DB) (src : SourceDoc) (cfg : IngestConfig)
    (ops : List DbOp) (docId v : Nat)
    (h : sourceTrace db src cfg = (ops, .committed docId v)) :
    srcChunks src cfg ≠ [] ∧
    ∃ pre,
      ops = pre
        ++ (split_batches (srcPayloads src cfg docId v) cfg.upsertBatchSize).map
             DbOp.opUpsertChunks
        ++ [DbOp.opDeactivateOthers src.source_key docId,
            DbOp.opUpdateDoc docId src.metadata (srcPageCount src) (srcWordCount src)
              (srcStatus src cfg) (srcWarnings src) true] ∧
      ((∃ row, get_existing_doc_for_hash db src.source_key src.source_sha256 = some row ∧
          (row.is_active && !cfg.force) = false ∧ docId = row.id ∧ v = row.version ∧
          pre = [DbOp.opReplaceChunks row.id,
                 DbOp.opUpdateDoc row.id src.metadata (srcPageCount src) (srcWordCount src)
                   (srcStatus src cfg) (srcWarnings src) false]) ∨
       (get_existing_doc_for_hash db src.source_key src.source_sha256 = none ∧
          docId = db.nextId ∧ v = get_next_version db src.source_key ∧
          pre = [DbOp.opInsertDoc src.source_key src.source_filename src.source_sha256 v
                   src.metadata (srcPageCount src) (srcWordCount src) (srcStatus src cfg)
                   (srcWarnings src)])) := by
  unfold sourceTrace at h
  rcases hfind : get_existing_doc_for_hash db src.source_key src.source_sha256 with _ | row <;>
    simp only [hfind] at h
  · unfold sourceBody at h
    by_cases hch : (srcChunks src cfg).isEmpty
    · simp only [hch, if_true] at h
      exact absurd (congrArg Prod.snd h) (by simp)
    · simp only [hch, if_false, Bool.false_eq_true] at h
      have hsnd := congrArg Prod.snd h
      simp only at hsnd
      obtain ⟨hid, hv⟩ : db.nextId = docId ∧ get_next_version db src.source_key = v := by
        cases hsnd
        exact ⟨rfl, rfl⟩
      have hfst := congrArg Prod.fst h
      simp only at hfst
      refine ⟨by simpa [List.isEmpty_iff] using hch, ?_⟩
      refine ⟨_, ?_, Or.inr ⟨rfl, hid.symm, hv.symm, rfl⟩⟩
      rw [← hfst, hid, hv]
  · by_cases hskip : (row.is_active && !cfg.force) = true
    · rw [if_pos hskip] at h
      exact absurd (congrArg Prod.snd h) (by simp)
    · rw [if_neg hskip] at h
      unfold sourceBody at h
      by_cases hch : (srcChunks src cfg).isEmpty
      · simp only [hch, if_true] at h
        exact absurd (congrArg Prod.snd h) (by simp)
      · simp only [hch, if_false, Bool.false_eq_true] at h
        have hsnd := congrArg Prod.snd h
        simp only at hsnd
        obtain ⟨hid, hv⟩ : row.id = docId ∧ row.version = v := by
          cases hsnd
          exact ⟨rfl, rfl⟩
        have hfst := congrArg Prod.fst h
        simp only at hfst
        refine ⟨by simpa [List.isEmpty_iff] using hch, ?_⟩
        refine ⟨_, ?_, Or.inl ⟨row, rfl, by simpa using hskip, hid.symm, hv.symm, rfl⟩⟩
        rw [← hfst, hid, hv]


/-- The row transformer inside `update_document_row`. -/
def updFn (document_id : Nat) (md : DocumentMetadata) (pc wc : Nat) (st : Str)
    (ws : List Str) (act : Bool) (r : DocRow) : DocRow :=
  if r.id == document_id then
    { r with
        title := md.title
        product_domain := md.product_domain
        brand := md.brand
        model := md.model
        page_count := pc
        extracted_word_count := wc
        extraction_status := st
        extraction_warnings := ws
        is_active := act }
  else r

/-- The row transformer inside `deactivate_other_versions`. -/
def deactFn (source_key : Str) (current_document_id : Nat) (r : DocRow) : DocRow :=
  if r.source_key == source_key && r.id != current_document_id && r.is_active then
    { r with is_active := false }
  else r

lemma update_document_row_docs (db : DB) (i : Nat) (md : DocumentMetadata)
    (pc wc : Nat) (st : Str) (ws : List Str) (act : Bool) :
    (update_document_row db i md pc wc st ws act).docs = db.docs.map (updFn i md pc wc st ws act) := rfl

lemma deactivate_docs (db : DB) (k : Str) (i : Nat) :
    (deactivate_other_versions db k i).docs = db.docs.map (deactFn k i) := rfl

lemma replace_chunks_docs (db : DB) (i : Nat) :
    (replace_chunks_for_document db i).docs = db.docs := rfl

/-- The row `insert_document_row` appends. -/
def insertedRow (db : DB) (k f s : Str) (v : Nat) (md : DocumentMetadata)
    (pc wc : Nat) (st : Str) (ws : List Str) : DocRow :=
  { id := db.nextId
    source_key := k
    source_filename := f
    source_sha256 := s
    version := v
    title := md.title
    product_domain := md.product_domain
    brand := md.brand
    model := md.model
    page_count := pc
    extracted_word_count := wc
    extraction_status := st
    extraction_warnings := ws
    is_active := false }

lemma insert_document_row_docs (db : DB) (k f s : Str) (v : Nat) (md : DocumentMetadata)
    (pc wc : Nat) (st : Str) (ws : List Str) :
    (insert_document_row db k f s v md pc wc st ws).1.docs
      = db.docs ++ [insertedRow db k f s v md pc wc st ws] := rfl

lemma updFn_key (i md pc wc st ws act) : ∀ r : DocRow, (updFn i md pc wc st ws act r).source_key = r.source_key := by
  intro r; unfold updFn; split <;> rfl

lemma updFn_sha (i md pc wc st ws act) : ∀ r : DocRow, (updFn i md pc wc st ws act r).source_sha256 = r.source_sha256 := by
  intro r; unfold updFn; split <;> rfl

lemma updFn_id (i md pc wc st ws act) : ∀ r : DocRow, (updFn i md pc wc st ws act r).id = r.id := by
  intro r; unfold updFn; split <;> rfl

lemma updFn_version (i md pc wc st ws act) : ∀ r : DocRow, (updFn i md pc wc st ws act r).version = r.version := by
  intro r; unfold updFn; split <;> rfl

lemma deactFn_key (k i) : ∀ r : DocRow, (deactFn k i r).source_key = r.source_key := by
  intro r; unfold deactFn; split <;> rfl

lemma deactFn_sha (k i) : ∀ r : DocRow, (deactFn k i r).source_sha256 = r.source_sha256 := by
  intro r; unfold deactFn; split <;> rfl

lemma deactFn_id (k i) : ∀ r : DocRow, (deactFn k i r).id = r.id := by
  intro r; unfold deactFn; split <;> rfl

lemma deactFn_version (k i) : ∀ r : DocRow, (deactFn k i r).version = r.version := by
  intro r; unfold deactFn; split <;> rfl

lemma updFn_self (i md pc wc st ws act) (r : DocRow) (hr : r.id = i) :
    updFn i md pc wc st ws act r =
      { r with
          title := md.title, product_domain := md.product_domain, brand := md.brand,
          model := md.model, page_count := pc, extracted_word_count := wc,
          extraction_status := st, extraction_warnings := ws, is_active := act } := by
  unfold updFn
  simp [hr]

lemma deactFn_self (k i) (r : DocRow) (hr : r.id = i) : deactFn k i r = r := by
  unfold deactFn
  simp [hr]

/-- The document table after a committed run is the input table with the
three per-row maps applied (existing-row case), or that plus the inserted
row (fresh case). -/
lemma committed_docs (db : DB) (src : SourceDoc) (cfg : IngestConfig)
    (ops : List DbOp) (docId v : Nat)
    (h : sourceTrace db src cfg = (ops, .committed docId v)) :
    ∃ base : List DocRow,
      ((∃ row, get_existing_doc_for_hash db src.source_key src.source_sha256 = some row ∧
          (row.is_active && !cfg.force) = false ∧ docId = row.id ∧ v = row.version ∧
          base = db.docs.map (updFn docId src.metadata (srcPageCount src) (srcWordCount src)
            (srcStatus src cfg) (srcWarnings src) false)) ∨
       (get_existing_doc_for_hash db src.source_key src.source_sha256 = none ∧
          docId = db.nextId ∧ v = get_next_version db src.source_key ∧
          base = db.docs ++ [insertedRow db src.source_key src.source_filename
            src.source_sha256 v src.metadata (srcPageCount src) (srcWordCount src)
            (srcStatus src cfg) (srcWarnings src)])) ∧
      (applyOps db ops).docs =
        (base.map (deactFn src.source_key docId)).map
          (updFn docId src.metadata (srcPageCount src) (srcWordCount src)
            (srcStatus src cfg) (srcWarnings src) true) := by
  obtain ⟨hch, pre, hops, hbr⟩ := committed_inversion db src cfg ops docId v h
  subst hops
  rcases hbr with ⟨row, hfind, hskip, hid, hv, hpre⟩ | ⟨hfind, hid, hv, hpre⟩
  · subst hpre
    refine ⟨_, Or.inl ⟨row, hfind, hskip, hid, hv, rfl⟩, ?_⟩
    rw [applyOps_append, applyOps_append]
    have h1 : (applyOps db [DbOp.opReplaceChunks row.id,
        DbOp.opUpdateDoc row.id src.metadata (srcPageCount src) (srcWordCount src)
          (srcStatus src cfg) (srcWarnings src) false]).docs
        = db.docs.map (updFn docId src.metadata (srcPageCount src) (srcWordCount src)
            (srcStatus src cfg) (srcWarnings src) false) := by
      show (update_document_row (replace_chunks_for_document db row.id) row.id _ _ _ _ _ _).docs = _
      rw [update_document_row_docs, replace_chunks_docs, hid]
    have h2 := upsert_batches_docs
      (split_batches (srcPayloads src cfg docId v) cfg.upsertBatchSize)
      (applyOps db [DbOp.opReplaceChunks row.id,
        DbOp.opUpdateDoc row.id src.metadata (srcPageCount src) (srcWordCount src)
          (srcStatus src cfg) (srcWarnings src) false])
    show (update_document_row (deactivate_other_versions _ _ _) _ _ _ _ _ _ _).docs = _
    rw [update_document_row_docs, deactivate_docs, h2, h1]
  · subst hpre
    refine ⟨_, Or.inr ⟨hfind, hid, hv, rfl⟩, ?_⟩
    rw [applyOps_append, applyOps_append]
    have h1 : (applyOps db [DbOp.opInsertDoc src.source_key src.source_filename
        src.source_sha256 v src.metadata (srcPageCount src) (srcWordCount src)
        (srcStatus src cfg) (srcWarnings src)]).docs
        = db.docs ++ [insertedRow db src.source_key src.source_filename src.source_sha256 v
            src.metadata (srcPageCount src) (srcWordCount src) (srcStatus src cfg)
            (srcWarnings src)] := rfl
    have h2 := upsert_batches_docs
      (split_batches (srcPayloads src cfg docId v) cfg.upsertBatchSize)
      (applyOps db [DbOp.opInsertDoc src.source_key src.source_filename src.source_sha256 v
        src.metadata (srcPageCount src) (srcWordCount src) (srcStatus src cfg)
        (srcWarnings src)])
    show (update_document_row (deactivate_other_versions _ _ _) _ _ _ _ _ _ _).docs = _
    rw [update_document_row_docs, deactivate_docs, h2, h1]



/-- After a committed run, the hash lookup finds the committed document:
same id, same version, now active. -/
lemma committed_find (db : DB) (src : SourceDoc) (cfg : IngestConfig)
    (ops : List DbOp) (docId v : Nat)
    (h : sourceTrace db src cfg = (ops, .committed docId v)) :
    ∃ r', get_existing_doc_for_hash (applyOps db ops) src.source_key src.source_sha256
        = some r' ∧
      r'.id = docId ∧ r'.version = v ∧ r'.is_active = true := by
  obtain ⟨base, hbr, hdocs⟩ := committed_docs db src cfg ops docId v h
  have hfd : get_existing_doc_for_hash (applyOps db ops) src.source_key src.source_sha256
      = ((base.find? fun r =>
            r.source_key == src.source_key && r.source_sha256 == src.source_sha256).map
          (deactFn src.source_key docId)).map
        (updFn docId src.metadata (srcPageCount src) (srcWordCount src)
          (srcStatus src cfg) (srcWarnings src) true) := by
    unfold get_existing_doc_for_hash
    rw [hdocs]
    rw [find?_docs_map _ (updFn_key _ _ _ _ _ _ _) (updFn_sha _ _ _ _ _ _ _)]
    rw [find?_docs_map _ (deactFn_key _ _) (deactFn_sha _ _)]
  rcases hbr with ⟨row, hfind, hskip, hid, hv, hbase⟩ | ⟨hfind, hid, hv, hbase⟩
  · have hbf : base.find? (fun r =>
        r.source_key == src.source_key && r.source_sha256 == src.source_sha256)
        = some (updFn docId src.metadata (srcPageCount src) (srcWordCount src)
            (srcStatus src cfg) (srcWarnings src) false row) := by
      rw [hbase, find?_docs_map _ (updFn_key _ _ _ _ _ _ _) (updFn_sha _ _ _ _ _ _ _)]
      unfold get_existing_doc_for_hash at hfind
      rw [hfind]
      rfl
    rw [hfd, hbf]
    refine ⟨_, rfl, ?_, ?_, ?_⟩
    · rw [updFn_id, deactFn_id, updFn_id, hid]
    · rw [updFn_version, deactFn_version, updFn_version, hv]
    · rw [updFn_self _ _ _ _ _ _ _ _ (by rw [deactFn_id, updFn_id, hid])]
  · have hbf : base.find? (fun r =>
        r.source_key == src.source_key && r.source_sha256 == src.source_sha256)
        = some (insertedRow db src.source_key src.source_filename src.source_sha256 v
            src.metadata (srcPageCount src) (srcWordCount src) (srcStatus src cfg)
            (srcWarnings src)) := by
      rw [hbase, List.find?_append]
      unfold get_existing_doc_for_hash at hfind
      rw [hfind]
      simp [insertedRow]
    rw [hfd, hbf]
    refine ⟨_, rfl, ?_, ?_, ?_⟩
    · rw [updFn_id, deactFn_id]
      simp [insertedRow, hid]
    · rw [updFn_version, deactFn_version]
      simp [insertedRow]
    · rw [updFn_self _ _ _ _ _ _ _ _ (by rw [deactFn_id]; simp [insertedRow, hid])]



/-! ### C5: idempotent skip on unchanged active content -/

/-- C5: if the hash lookup finds the (source_key, source_sha256) row and
it is currently active and reprocessing was not forced, the run performs
no work for the source (no database operation at all) and counts it as
skipped; consequently, re-running reconciliation on byte-identical,
already-active content — in particular immediately after a committed
run — changes nothing on the second run. -/
theorem c5_hash_unchanged_skip :
    (∀ (db : DB) (src : SourceDoc) (cfg : IngestConfig) (r : DocRow),
       get_existing_doc_for_hash db src.source_key src.source_sha256 = some r →
       r.is_active = true → cfg.force = false →
       sourceTrace db src cfg = ([], .skipped) ∧ processSource db src cfg = (db, .skipped)) ∧
    (∀ (db : DB) (src : SourceDoc) (cfg : IngestConfig) (ops : List DbOp) (docId v : Nat),
       cfg.force = false →
       sourceTrace db src cfg = (ops, .committed docId v) →
       processSource (applyOps db ops) src cfg = (applyOps db ops, .skipped)) := by
  constructor
  · intro db src cfg r hfind hact hforce
    have hskip := skip_of_active db src cfg r hfind hact hforce
    refine ⟨hskip, ?_⟩
    unfold processSource
    rw [hskip]
    rfl
  · intro db src cfg ops docId v hforce h
    obtain ⟨r', hfind, _, _, hact⟩ := committed_find db src cfg ops docId v h
    have hskip := skip_of_active _ src cfg r' hfind hact hforce
    unfold processSource
    rw [hskip]
    rfl

def c5wRow : DocRow :=
  { id := 1
    source_key := "appliance_docs/m.pdf".data
    source_filename := "m.pdf".data
    source_sha256 := "h1".data
    version := 1
    title := "T".data
    product_domain := "appliance".data
    brand := none
    model := none
    page_count := 1
    extracted_word_count := 5
    extraction_status := "ready".data
    extraction_warnings := []
    is_active := true }

def c5wDb : DB := { docs := [c5wRow], chunks := [], nextId := 2 }

def c5wPage : PageRecord :=
  { page_number := 1
    text := "Do not operate without cover.".data
    paragraphs := ["Do not operate without cover.".data]
    word_count := 5 }

def c5wMeta : DocumentMetadata :=
  { title := "T".data, brand := none, model := none, product_domain := "appliance".data }

def c5wSrc : SourceDoc :=
  { source_key := "appliance_docs/m.pdf".data
    stem := "m".data
    source_filename := "m.pdf".data
    source_sha256 := "h1".data
    pages := [c5wPage]
    metadata := c5wMeta }

def c5wCfg : IngestConfig :=
  { force := false, chunkWords := 5, overlapWords := 1, upsertBatchSize := 10 }

def c5wDb2 : DB := { docs := [], chunks := [], nextId := 1 }

/-- Witness for `c5_hash_unchanged_skip`: a concrete skip on an active
matching row, and a concrete second run after a committed first run. -/
theorem c5_hash_unchanged_skip_witness :
    (sourceTrace c5wDb c5wSrc c5wCfg = ([], .skipped) ∧
      processSource c5wDb c5wSrc c5wCfg = (c5wDb, .skipped)) ∧
    processSource (applyOps c5wDb2 (sourceTrace c5wDb2 c5wSrc c5wCfg).1) c5wSrc c5wCfg
      = (applyOps c5wDb2 (sourceTrace c5wDb2 c5wSrc c5wCfg).1, .skipped) :=
  ⟨c5_hash_unchanged_skip.1 c5wDb c5wSrc c5wCfg c5wRow (by decide) (by decide) (by decide),
   c5_hash_unchanged_skip.2 c5wDb2 c5wSrc c5wCfg (sourceTrace c5wDb2 c5wSrc c5wCfg).1 1 1
     (by decide) (by decide)⟩



/-! ### C1: exactly one active version per source_key -/

lemma updFn_active_true (i md pc wc st ws) (r : DocRow) :
    (updFn i md pc wc st ws true r).is_active = (if r.id == i then true else r.is_active) := by
  unfold updFn
  split <;> simp_all

/-- C1: after any run for a source that reaches the activation step
(a committed run), exactly one row of the document table carries this
source_key with `is_active = true` — the reconciler first deactivates
every other active version of the source_key and then activates the
current document.  The hypotheses say the table is well-formed: row ids
are unique and below the generator's next id. -/
theorem c1_exactly_one_active (db : DB) (src : SourceDoc) (cfg : IngestConfig)
    (ops : List DbOp) (docId v : Nat)
    (hids : (db.docs.map DocRow.id).Nodup)
    (hfresh : ∀ r ∈ db.docs, r.id < db.nextId)
    (h : sourceTrace db src cfg = (ops, .committed docId v)) :
    ((applyOps db ops).docs.filter fun r =>
        r.source_key == src.source_key && r.is_active).length = 1 := by
  classical
  obtain ⟨base, hbr, hdocs⟩ := committed_docs db src cfg ops docId v h
  rw [← List.countP_eq_length_filter, hdocs, List.countP_map, List.countP_map]
  -- rows of `base` that carry the key: exactly those with id = docId
  have hkeyOf : ∀ x ∈ base, x.id = docId → x.source_key = src.source_key := by
    rcases hbr with ⟨row, hfind, hskip, hid, hv, hbase⟩ | ⟨hfind, hid, hv, hbase⟩
    · intro x hx hxid
      rw [hbase] at hx
      obtain ⟨y, hy, rfl⟩ := List.mem_map.mp hx
      have hyid : y.id = docId := by rw [← updFn_id _ src.metadata (srcPageCount src) (srcWordCount src) (srcStatus src cfg) (srcWarnings src) false y]; exact hxid
      have hrow : row ∈ db.docs := List.mem_of_find?_eq_some hfind
      have hrowid : docId = row.id := hid
      have : y = row := List.inj_on_of_nodup_map hids hy hrow (by rw [hyid, hrowid])
      subst this
      have hpred := List.find?_some hfind
      simp only [Bool.and_eq_true, beq_iff_eq] at hpred
      rw [updFn_key]
      exact hpred.1
    · intro x hx hxid
      rw [hbase] at hx
      rcases List.mem_append.mp hx with hx | hx
      · exact absurd (hxid ▸ hfresh x hx) (by rw [hid]; exact Nat.lt_irrefl _)
      · simp only [List.mem_singleton] at hx
        subst hx
        rfl
  have hpoint : ∀ x ∈ base,
      (((fun r => r.source_key == src.source_key && r.is_active) ∘
          updFn docId src.metadata (srcPageCount src) (srcWordCount src)
            (srcStatus src cfg) (srcWarnings src) true) ∘
         deactFn src.source_key docId) x = (x.id == docId) := by
    intro x hx
    by_cases hxid : x.id = docId
    · have hd : deactFn src.source_key docId x = x := deactFn_self _ _ x hxid
      have hu := updFn_self docId src.metadata (srcPageCount src) (srcWordCount src)
        (srcStatus src cfg) (srcWarnings src) true x hxid
      simp only [Function.comp_apply, hd, hu]
      have := hkeyOf x hx hxid
      simp [this, hxid]
    · simp only [Function.comp_apply]
      unfold deactFn
      by_cases hc : (x.source_key == src.source_key && x.id != docId && x.is_active) = true
      · rw [if_pos hc]
        unfold updFn
        have : ({ x with is_active := false } : DocRow).id = x.id := rfl
        simp [this, hxid]
      · rw [if_neg hc]
        unfold updFn
        rw [if_neg (by simpa using hxid)]
        have hrhs : (x.id == docId) = false := by simpa using hxid
        rw [hrhs]
        simp only [Bool.and_eq_true, bne_iff_ne, beq_iff_eq] at hc
        push_neg at hc
        by_cases hk : x.source_key = src.source_key
        · have hna : x.is_active = false := by
            rcases Bool.eq_false_or_eq_true x.is_active with hb | hb
            · exact absurd hb (hc ⟨hk, hxid⟩)
            · exact hb
          simp [hk, hna]
        · simp [hk]
  rw [List.countP_congr (fun x hx => by rw [hpoint x hx])]
  -- exactly one row of `base` has id `docId`
  show base.countP (fun x => x.id == docId) = 1
  have : base.countP (fun x => x.id == docId) = (base.map DocRow.id).count docId := by
    rw [List.count, List.countP_map]
    rfl
  rw [this]
  rcases hbr with ⟨row, hfind, hskip, hid, hv, hbase⟩ | ⟨hfind, hid, hv, hbase⟩
  · have hrow : row ∈ db.docs := List.mem_of_find?_eq_some hfind
    have hmapids : base.map DocRow.id = db.docs.map DocRow.id := by
      rw [hbase, List.map_map]
      congr 1
      funext r
      exact updFn_id _ _ _ _ _ _ _ r
    rw [hmapids]
    exact List.count_eq_one_of_mem hids (by rw [hid]; exact List.mem_map_of_mem DocRow.id hrow)
  · have hmapids : base.map DocRow.id = db.docs.map DocRow.id ++ [db.nextId] := by
      rw [hbase, List.map_append]
      rfl
    rw [hmapids]
    have hnodup : (db.docs.map DocRow.id ++ [db.nextId]).Nodup := by
      rw [List.nodup_append]
      refine ⟨hids, List.nodup_singleton _, ?_⟩
      intro a ha hb
      simp only [List.mem_singleton] at hb
      obtain ⟨r, hr, rfl⟩ := List.mem_map.mp ha
      exact absurd (hb ▸ hfresh r hr) (Nat.lt_irrefl _)
    exact List.count_eq_one_of_mem hnodup (by rw [hid]; simp)


def c1wRow : DocRow :=
  { c5wRow with source_sha256 := "h0".data }

def c1wDb : DB := { docs := [c1wRow], chunks := [], nextId := 2 }

/-- Witness for `c1_exactly_one_active`: a committed run over a database
that already holds an active prior version of the same source_key. -/
theorem c1_exactly_one_active_witness :
    ((applyOps c1wDb (sourceTrace c1wDb c5wSrc c5wCfg).1).docs.filter fun r =>
        r.source_key == c5wSrc.source_key && r.is_active).length = 1 :=
  c1_exactly_one_active c1wDb c5wSrc c5wCfg (sourceTrace c1wDb c5wSrc c5wCfg).1 2 2
    (by decide) (by decide) (by decide)


/-! ### C4: zero-chunk sources are failed without deactivation -/

/-- Trace structure of a run that found no usable chunks. -/
lemma noChunks_inversion (db : DB) (src : SourceDoc) (cfg : IngestConfig)
    (ops : List DbOp) (docId : Nat)
    (h : sourceTrace db src cfg = (ops, .noChunks docId)) :
    srcChunks src cfg = [] ∧
    ((∃ row, get_existing_doc_for_hash db src.source_key src.source_sha256 = some row ∧
        (row.is_active && !cfg.force) = false ∧ docId = row.id ∧
        ops = [DbOp.opReplaceChunks row.id,
               DbOp.opUpdateDoc row.id src.metadata (srcPageCount src) (srcWordCount src)
                 (srcStatus src cfg) (srcWarnings src) false,
               DbOp.opUpdateDoc docId src.metadata (srcPageCount src) (srcWordCount src)
                 "failed".data (srcWarnings src ++ ["no_usable_chunks".data]) false]) ∨
     (get_existing_doc_for_hash db src.source_key src.source_sha256 = none ∧
        docId = db.nextId ∧
        ops = [DbOp.opInsertDoc src.source_key src.source_filename src.source_sha256
                 (get_next_version db src.source_key) src.metadata (srcPageCount src)
                 (srcWordCount src) (srcStatus src cfg) (srcWarnings src),
               DbOp.opUpdateDoc docId src.metadata (srcPageCount src) (srcWordCount src)
                 "failed".data (srcWarnings src ++ ["no_usable_chunks".data]) false])) := by
  unfold sourceTrace at h
  rcases hfind : get_existing_doc_for_hash db src.source_key src.source_sha256 with _ | row <;>
    simp only [hfind] at h
  · unfold sourceBody at h
    by_cases hch : (srcChunks src cfg).isEmpty
    · simp only [hch, if_true] at h
      have hsnd := congrArg Prod.snd h
      simp only at hsnd
      have hid : db.nextId = docId := by cases hsnd; rfl
      have hfst := congrArg Prod.fst h
      simp only at hfst
      refine ⟨by simpa [List.isEmpty_iff] using hch, Or.inr ⟨rfl, hid.symm, ?_⟩⟩
      rw [← hfst, hid]
      rfl
    · simp only [hch, if_false, Bool.false_eq_true] at h
      exact absurd (congrArg Prod.snd h) (by simp)
  · by_cases hskip : (row.is_active && !cfg.force) = true
    · rw [if_pos hskip] at h
      exact absurd (congrArg Prod.snd h) (by simp)
    · rw [if_neg hskip] at h
      unfold sourceBody at h
      by_cases hch : (srcChunks src cfg).isEmpty
      · simp only [hch, if_true] at h
        have hsnd := congrArg Prod.snd h
        simp only at hsnd
        have hid : row.id = docId := by cases hsnd; rfl
        have hfst := congrArg Prod.fst h
        simp only at hfst
        refine ⟨by simpa [List.isEmpty_iff] using hch,
          Or.inl ⟨row, rfl, by simpa using hskip, hid.symm, ?_⟩⟩
        rw [← hfst, hid]
        rfl
      · simp only [hch, if_false, Bool.false_eq_true] at h
        exact absurd (congrArg Prod.snd h) (by simp)

/-- C4: a source whose extraction yields zero chunks is marked
`extraction_status = "failed"` with warning `no_usable_chunks` and stays
inactive, the trace contains no deactivation, and every other document row
is untouched — so a previously active version of the same source_key
remains active. -/
theorem c4_zero_chunks_failed (db : DB) (src : SourceDoc) (cfg : IngestConfig)
    (ops : List DbOp) (docId : Nat)
    (h : sourceTrace db src cfg = (ops, .noChunks docId)) :
    (∃ r ∈ (applyOps db ops).docs, r.id = docId ∧
       r.extraction_status = "failed".data ∧
       "no_usable_chunks".data ∈ r.extraction_warnings ∧
       r.is_active = false) ∧
    (∀ r ∈ db.docs, r.id ≠ docId → r ∈ (applyOps db ops).docs) ∧
    (∀ op ∈ ops, ∀ k i, op ≠ DbOp.opDeactivateOthers k i) ∧
    (∀ r ∈ db.docs, r.is_active = true → r.id ≠ docId →
       r ∈ (applyOps db ops).docs ∧ r.is_active = true) := by
  obtain ⟨hch, hbr⟩ := noChunks_inversion db src cfg ops docId h
  rcases hbr with ⟨row, hfind, hskip, hid, hops⟩ | ⟨hfind, hid, hops⟩
  · have hdocs : (applyOps db ops).docs =
        (db.docs.map (updFn row.id src.metadata (srcPageCount src) (srcWordCount src)
          (srcStatus src cfg) (srcWarnings src) false)).map
          (updFn docId src.metadata (srcPageCount src) (srcWordCount src)
            "failed".data (srcWarnings src ++ ["no_usable_chunks".data]) false) := by
      rw [hops]
      show (update_document_row (update_document_row (replace_chunks_for_document db row.id)
        row.id _ _ _ _ _ _) docId _ _ _ _ _ _).docs = _
      rw [update_document_row_docs, update_document_row_docs, replace_chunks_docs]
    have hrow : row ∈ db.docs := List.mem_of_find?_eq_some hfind
    have hunch : ∀ r ∈ db.docs, r.id ≠ docId → r ∈ (applyOps db ops).docs := by
      intro r hr hne
      have h1 : updFn row.id src.metadata (srcPageCount src) (srcWordCount src)
          (srcStatus src cfg) (srcWarnings src) false r = r := by
        unfold updFn
        rw [if_neg (by simpa using (hid ▸ hne))]
      have h2 : updFn docId src.metadata (srcPageCount src) (srcWordCount src)
          "failed".data (srcWarnings src ++ ["no_usable_chunks".data]) false r = r := by
        unfold updFn
        rw [if_neg (by simpa using hne)]
      rw [hdocs]
      have : r = updFn docId src.metadata (srcPageCount src) (srcWordCount src)
          "failed".data (srcWarnings src ++ ["no_usable_chunks".data]) false
            (updFn row.id src.metadata (srcPageCount src) (srcWordCount src)
              (srcStatus src cfg) (srcWarnings src) false r) := by rw [h1, h2]
      rw [this]
      exact List.mem_map_of_mem _ (List.mem_map_of_mem _ hr)
    refine ⟨?_, hunch, ?_, fun r hr hact hne => ⟨hunch r hr hne, hact⟩⟩
    · refine ⟨updFn docId src.metadata (srcPageCount src) (srcWordCount src)
        "failed".data (srcWarnings src ++ ["no_usable_chunks".data]) false
          (updFn row.id src.metadata (srcPageCount src) (srcWordCount src)
            (srcStatus src cfg) (srcWarnings src) false row), ?_, ?_, ?_, ?_, ?_⟩
      · rw [hdocs]
        exact List.mem_map_of_mem _ (List.mem_map_of_mem _ hrow)
      · rw [updFn_id, updFn_id, hid]
      · rw [updFn_self _ _ _ _ _ _ _ _ (by rw [updFn_id, hid])]
      · rw [updFn_self _ _ _ _ _ _ _ _ (by rw [updFn_id, hid])]
        simp
      · rw [updFn_self _ _ _ _ _ _ _ _ (by rw [updFn_id, hid])]
    · intro op hop k i
      rw [hops] at hop
      simp only [List.mem_cons, List.not_mem_nil, or_false] at hop
      rcases hop with rfl | rfl | rfl <;> simp
  · have hdocs : (applyOps db ops).docs =
        (db.docs ++ [insertedRow db src.source_key src.source_filename src.source_sha256
            (get_next_version db src.source_key) src.metadata (srcPageCount src)
            (srcWordCount src) (srcStatus src cfg) (srcWarnings src)]).map
          (updFn docId src.metadata (srcPageCount src) (srcWordCount src)
            "failed".data (srcWarnings src ++ ["no_usable_chunks".data]) false) := by
      rw [hops]
      show (update_document_row (insert_document_row db _ _ _ _ _ _ _ _ _).1
        docId _ _ _ _ _ _).docs = _
      rw [update_document_row_docs, insert_document_row_docs]
    have hinsid : (insertedRow db src.source_key src.source_filename src.source_sha256
        (get_next_version db src.source_key) src.metadata (srcPageCount src)
        (srcWordCount src) (srcStatus src cfg) (srcWarnings src)).id = docId := by
      rw [hid]; rfl
    have hunch : ∀ r ∈ db.docs, r.id ≠ docId → r ∈ (applyOps db ops).docs := by
      intro r hr hne
      have h2 : updFn docId src.metadata (srcPageCount src) (srcWordCount src)
          "failed".data (srcWarnings src ++ ["no_usable_chunks".data]) false r = r := by
        unfold updFn
        rw [if_neg (by simpa using hne)]
      rw [hdocs]
      have : r = updFn docId src.metadata (srcPageCount src) (srcWordCount src)
          "failed".data (srcWarnings src ++ ["no_usable_chunks".data]) false r := h2.symm
      rw [this]
      exact List.mem_map_of_mem _ (List.mem_append_left _ hr)
    refine ⟨?_, hunch, ?_, fun r hr hact hne => ⟨hunch r hr hne, hact⟩⟩
    · refine ⟨updFn docId src.metadata (srcPageCount src) (srcWordCount src)
        "failed".data (srcWarnings src ++ ["no_usable_chunks".data]) false
          (insertedRow db src.source_key src.source_filename src.source_sha256
            (get_next_version db src.source_key) src.metadata (srcPageCount src)
            (srcWordCount src) (srcStatus src cfg) (srcWarnings src)), ?_, ?_, ?_, ?_, ?_⟩
      · rw [hdocs]
        exact List.mem_map_of_mem _ (List.mem_append_right _ (by simp))
      · rw [updFn_id, hinsid]
      · rw [updFn_self _ _ _ _ _ _ _ _ hinsid]
      · rw [updFn_self _ _ _ _ _ _ _ _ hinsid]
        simp
      · rw [updFn_self _ _ _ _ _ _ _ _ hinsid]
    · intro op hop k i
      rw [hops] at hop
      simp only [List.mem_cons, List.not_mem_nil, or_false] at hop
      rcases hop with rfl | rfl <;> simp


def c4wSrc : SourceDoc :=
  { c5wSrc with source_sha256 := "h2".data, pages := [] }

/-- Witness for `c4_zero_chunks_failed`: a zero-page source over a
database holding an active prior version of the same source_key. -/
theorem c4_zero_chunks_failed_witness :
    (∃ r ∈ (applyOps c5wDb (sourceTrace c5wDb c4wSrc c5wCfg).1).docs, r.id = 2 ∧
       r.extraction_status = "failed".data ∧
       "no_usable_chunks".data ∈ r.extraction_warnings ∧
       r.is_active = false) ∧
    (∀ r ∈ c5wDb.docs, r.id ≠ 2 →
       r ∈ (applyOps c5wDb (sourceTrace c5wDb c4wSrc c5wCfg).1).docs) ∧
    (∀ op ∈ (sourceTrace c5wDb c4wSrc c5wCfg).1, ∀ k i,
       op ≠ DbOp.opDeactivateOthers k i) ∧
    (∀ r ∈ c5wDb.docs, r.is_active = true → r.id ≠ 2 →
       r ∈ (applyOps c5wDb (sourceTrace c5wDb c4wSrc c5wCfg).1).docs ∧
         r.is_active = true) :=
  c4_zero_chunks_failed c5wDb c4wSrc c5wCfg (sourceTrace c5wDb c4wSrc c5wCfg).1 2 (by decide)


/-! ### C6: deterministic dedup keys across a forced rerun -/

def upsertSel : DbOp → Option (List ChunkRow)
  | .opUpsertChunks rows => some rows
  | _ => none

lemma traceRefs_eq (ops : List DbOp) :
    traceRefs ops = ((ops.filterMap upsertSel).flatten).map ChunkRow.source_ref := rfl

lemma splitBatchesAux_flatten (n : Nat) (hn : 0 < n) :
    ∀ fuel (l : List α), l.length ≤ fuel → (splitBatchesAux n fuel l).flatten = l := by
  intro fuel
  induction fuel with
  | zero =>
    intro l hl
    rcases l with _ | ⟨x, xs⟩
    · rfl
    · simp at hl
  | succ fuel ih =>
    intro l hl
    rcases l with _ | ⟨x, xs⟩
    · rfl
    · show ((x :: xs).take n :: splitBatchesAux n fuel ((x :: xs).drop n)).flatten = x :: xs
      rw [List.flatten_cons, ih ((x :: xs).drop n) (by rw [List.length_drop]; simp at hl ⊢; omega)]
      exact List.take_append_drop n (x :: xs)

lemma split_batches_flatten (l : List α) (n : Nat) (hn : 0 < n) :
    (split_batches l n).flatten = l := by
  unfold split_batches
  rw [if_neg (by omega)]
  exact splitBatchesAux_flatten n hn l.length l (Nat.le_refl _)

lemma traceRefs_commit_shape (pre : List DbOp) (batches : List (List ChunkRow))
    (k : Str) (i i2 : Nat) (md : DocumentMetadata) (pc wc : Nat) (st : Str)
    (ws : List Str) (act : Bool)
    (hpre : pre.filterMap upsertSel = []) :
    traceRefs (pre ++ batches.map DbOp.opUpsertChunks ++
        [DbOp.opDeactivateOthers k i, DbOp.opUpdateDoc i2 md pc wc st ws act])
      = batches.flatten.map ChunkRow.source_ref := by
  rw [traceRefs_eq, List.filterMap_append, List.filterMap_append, hpre]
  have h1 : (batches.map DbOp.opUpsertChunks).filterMap upsertSel = batches := by
    rw [List.filterMap_map]
    have : (upsertSel ∘ DbOp.opUpsertChunks) = some := rfl
    rw [this, List.filterMap_some]
  have h2 : ([DbOp.opDeactivateOthers k i,
      DbOp.opUpdateDoc i2 md pc wc st ws act] : List DbOp).filterMap upsertSel = [] := rfl
  rw [h1, h2]
  simp

lemma srcPayloads_refs (src : SourceDoc) (cfg : IngestConfig) (docId v : Nat) :
    (srcPayloads src cfg docId v).map ChunkRow.source_ref
      = (srcChunks src cfg).map fun c =>
          sourceRefStr (slugify src.stem) v c.page_start c.page_end c.chunk_index := by
  unfold srcPayloads mkChunkPayloads
  rw [List.map_map]
  rfl

/-- The committed trace of the existing-row branch, as one equation. -/
lemma trace_existing_commit (db : DB) (src : SourceDoc) (cfg : IngestConfig) (r : DocRow)
    (hfind : get_existing_doc_for_hash db src.source_key src.source_sha256 = some r)
    (hskip : (r.is_active && !cfg.force) = false)
    (hch : (srcChunks src cfg).isEmpty = false) :
    sourceTrace db src cfg =
      ([DbOp.opReplaceChunks r.id,
        DbOp.opUpdateDoc r.id src.metadata (srcPageCount src) (srcWordCount src)
          (srcStatus src cfg) (srcWarnings src) false] ++
       (split_batches (srcPayloads src cfg r.id r.version) cfg.upsertBatchSize).map
         DbOp.opUpsertChunks ++
       [DbOp.opDeactivateOthers src.source_key r.id,
        DbOp.opUpdateDoc r.id src.metadata (srcPageCount src) (srcWordCount src)
          (srcStatus src cfg) (srcWarnings src) true],
       .committed r.id r.version) := by
  unfold sourceTrace
  simp only [hfind]
  rw [if_neg (by simp [hskip])]
  unfold sourceBody
  rw [if_neg (by simp [hch])]

/-- C6: the chunk dedup key is a deterministic function of the slugified
stem, the version, the page span and the chunk index; re-running
reconciliation on unchanged content with reprocessing forced finds the
committed row again, reuses its id and version, commits, and its chunk
upserts carry exactly the same `source_ref` keys as the first run. -/
theorem c6_forced_rerun_same_refs (db : DB) (src : SourceDoc) (cfg cfg2 : IngestConfig)
    (ops : List DbOp) (docId v : Nat)
    (h : sourceTrace db src cfg = (ops, .committed docId v))
    (hcfg2 : cfg2 = { cfg with force := true })
    (hbs : 0 < cfg.upsertBatchSize) :
    ∃ ops2, sourceTrace (applyOps db ops) src cfg2 = (ops2, .committed docId v) ∧
      traceRefs ops2 = traceRefs ops ∧
      traceRefs ops = (srcChunks src cfg).map fun c =>
        sourceRefStr (slugify src.stem) v c.page_start c.page_end c.chunk_index := by
  subst hcfg2
  obtain ⟨hch, pre, hops, hbr⟩ := committed_inversion db src cfg ops docId v h
  obtain ⟨r', hfind2, hid2, hv2, hact2⟩ := committed_find db src cfg ops docId v h
  have hchunks2 : srcChunks src { cfg with force := true } = srcChunks src cfg := rfl
  have hrefs1 : traceRefs ops = (srcChunks src cfg).map fun c =>
      sourceRefStr (slugify src.stem) v c.page_start c.page_end c.chunk_index := by
    rw [hops]
    have hpre : pre.filterMap upsertSel = [] := by
      rcases hbr with ⟨row, _, _, _, _, hpre⟩ | ⟨_, _, _, hpre⟩ <;> rw [hpre] <;> rfl
    rw [traceRefs_commit_shape _ _ _ _ _ _ _ _ _ _ _ hpre,
      split_batches_flatten _ _ hbs, srcPayloads_refs]
  have htr2 := trace_existing_commit (applyOps db ops) src { cfg with force := true } r'
    hfind2 (by simp [hact2])
    (by
      rw [hchunks2]
      cases hcc : (srcChunks src cfg).isEmpty
      · rfl
      · exact absurd (List.isEmpty_iff.mp hcc) hch)
  rw [hid2, hv2] at htr2
  refine ⟨_, htr2, ?_, hrefs1⟩
  rw [hrefs1]
  have hpre2 : ([DbOp.opReplaceChunks docId,
      DbOp.opUpdateDoc docId src.metadata (srcPageCount src) (srcWordCount src)
        (srcStatus src { cfg with force := true }) (srcWarnings src) false] :
      List DbOp).filterMap upsertSel = [] := rfl
  rw [traceRefs_commit_shape _ _ _ _ _ _ _ _ _ _ _ hpre2]
  have hbseq : ({ cfg with force := true } : IngestConfig).upsertBatchSize
      = cfg.upsertBatchSize := rfl
  rw [hbseq, split_batches_flatten _ _ hbs, srcPayloads_refs, hchunks2]



/-- Witness for `c6_forced_rerun_same_refs`: a committed first run over a
database holding an active prior version, followed by a forced rerun. -/
theorem c6_forced_rerun_same_refs_witness :
    ∃ ops2, sourceTrace (applyOps c1wDb (sourceTrace c1wDb c5wSrc c5wCfg).1) c5wSrc
        { c5wCfg with force := true } = (ops2, .committed 2 2) ∧
      traceRefs ops2 = traceRefs (sourceTrace c1wDb c5wSrc c5wCfg).1 ∧
      traceRefs (sourceTrace c1wDb c5wSrc c5wCfg).1 = (srcChunks c5wSrc c5wCfg).map fun c =>
        sourceRefStr (slugify c5wSrc.stem) 2 c.page_start c.page_end c.chunk_index :=
  c6_forced_rerun_same_refs c1wDb c5wSrc c5wCfg { c5wCfg with force := true }
    (sourceTrace c1wDb c5wSrc c5wCfg).1 2 2 (by decide) rfl (by decide)


/-! ### Decimal rendering is injective; dedup keys determine the chunk index -/

lemma digitChar_isDigit {d : Nat} (h : d < 10) : (digitChar d).isDigit = true := by
  interval_cases d <;> decide

lemma digitChar_val {d : Nat} (h : d < 10) : (digitChar d).toNat - 48 = d := by
  interval_cases d <;> decide

/-- Decimal parsing, the left inverse of `natToStr`. -/
def strToNat (s : Str) : Nat := s.foldl (fun a c => 10 * a + (c.toNat - 48)) 0

lemma natToStrAux_all_digit : ∀ fuel n, ∀ c ∈ natToStrAux fuel n, c.isDigit = true := by
  intro fuel
  induction fuel with
  | zero => intro n c hc; simp [natToStrAux] at hc
  | succ fuel ih =>
    intro n c hc
    unfold natToStrAux at hc
    by_cases hn : n < 10
    · rw [if_pos hn] at hc
      simp only [List.mem_singleton] at hc
      subst hc
      exact digitChar_isDigit hn
    · rw [if_neg hn] at hc
      rcases List.mem_append.mp hc with hc | hc
      · exact ih (n / 10) c hc
      · simp only [List.mem_singleton] at hc
        subst hc
        exact digitChar_isDigit (Nat.mod_lt n (by omega))

lemma natToStr_all_digit (n : Nat) : ∀ c ∈ natToStr n, c.isDigit = true :=
  natToStrAux_all_digit (n + 1) n

lemma foldl_step_append (xs : Str) (d : Char) (a : Nat) :
    (xs ++ [d]).foldl (fun a c => 10 * a + (c.toNat - 48)) a
      = 10 * xs.foldl (fun a c => 10 * a + (c.toNat - 48)) a + (d.toNat - 48) := by
  rw [List.foldl_append]
  rfl

lemma natToStrAux_parse : ∀ fuel n, n < 10 ^ fuel → ∀ a,
    (natToStrAux fuel n).foldl (fun a c => 10 * a + (c.toNat - 48)) a
      = a * 10 ^ (natToStrAux fuel n).length + n := by
  intro fuel
  induction fuel with
  | zero =>
    intro n hn a
    have : n = 0 := by simpa using hn
    subst this
    simp [natToStrAux]
  | succ fuel ih =>
    intro n hn a
    unfold natToStrAux
    by_cases h10 : n < 10
    · rw [if_pos h10]
      show 10 * a + ((digitChar n).toNat - 48) = a * 10 ^ 1 + n
      rw [digitChar_val h10]
      ring
    · rw [if_neg h10]
      rw [foldl_step_append]
      have hdiv : n / 10 < 10 ^ fuel := by
        rw [Nat.div_lt_iff_lt_mul (by omega)]
        calc n < 10 ^ (fuel + 1) := hn
        _ = 10 ^ fuel * 10 := by ring
      rw [ih (n / 10) hdiv a, digitChar_val (Nat.mod_lt n (by omega))]
      rw [List.length_append]
      simp only [List.length_singleton]
      have : a * 10 ^ ((natToStrAux fuel (n / 10)).length + 1)
          = 10 * (a * 10 ^ (natToStrAux fuel (n / 10)).length) := by ring
      rw [this]
      omega

lemma strToNat_natToStr (n : Nat) : strToNat (natToStr n) = n := by
  unfold strToNat natToStr
  have hn : n < 10 ^ (n + 1) := by
    calc n < 10 ^ n := Nat.lt_pow_self (by omega) n
    _ ≤ 10 ^ (n + 1) := Nat.pow_le_pow_right (by omega) (by omega)
  rw [natToStrAux_parse (n + 1) n hn 0]
  simp

lemma natToStr_injective {n m : Nat} (h : natToStr n = natToStr m) : n = m := by
  have := strToNat_natToStr n
  rw [h, strToNat_natToStr] at this
  omega

lemma takeWhile_digits_append (xs ys : Str) (hxs : ∀ c ∈ xs, c.isDigit = true) :
    (xs ++ 'c' :: ys).takeWhile Char.isDigit = xs := by
  induction xs with
  | nil => rfl
  | cons x xs ih =>
    simp only [List.cons_append, List.takeWhile]
    rw [hxs x (by simp)]
    simp only
    show x :: (xs ++ 'c' :: ys).takeWhile Char.isDigit = x :: xs
    rw [ih (fun c hc => hxs c (by simp [hc]))]

lemma sourceRefStr_chunk_index {slug slug2 : Str} {v ps pe ci v2 ps2 pe2 ci2 : Nat}
    (h : sourceRefStr slug v ps pe ci = sourceRefStr slug2 v2 ps2 pe2 ci2) : ci = ci2 := by
  have hrev : ∀ (s : Str) (w pp qq ii : Nat),
      (sourceRefStr s w pp qq ii).reverse.takeWhile Char.isDigit = (natToStr ii).reverse := by
    intro s w pp qq ii
    unfold sourceRefStr
    rw [List.reverse_append, List.reverse_append]
    show ((natToStr ii).reverse ++ ('c' :: ':' :: _)).takeWhile Char.isDigit = _
    rw [takeWhile_digits_append _ _
      (fun c hc => natToStr_all_digit ii c (List.mem_reverse.mp hc))]
  have h2 := congrArg (fun s : Str => s.reverse.takeWhile Char.isDigit) h
  simp only [hrev] at h2
  exact natToStr_injective (List.reverse_injective h2)



/-! ### Token words are non-empty and whitespace-free -/

lemma splitWsAux_no_space (s : Str) : ∀ cur, (∀ c ∈ cur, isPySpace c = false) →
    ∀ w ∈ splitWsAux cur s, ∀ c ∈ w, isPySpace c = false := by
  induction s with
  | nil =>
    intro cur hcur w hw
    unfold splitWsAux at hw
    by_cases hc : cur.isEmpty
    · rw [if_pos hc] at hw
      simp at hw
    · rw [if_neg hc] at hw
      simp only [List.mem_singleton] at hw
      subst hw
      intro c hc2
      exact hcur c (List.mem_reverse.mp hc2)
  | cons x s ih =>
    intro cur hcur w hw
    unfold splitWsAux at hw
    by_cases hx : isPySpace x
    · rw [if_pos hx] at hw
      by_cases hc : cur.isEmpty
      · rw [if_pos hc] at hw
        exact ih [] (by simp) w hw
      · rw [if_neg hc] at hw
        rcases List.mem_cons.mp hw with rfl | hw
        · intro c hc2
          exact hcur c (List.mem_reverse.mp hc2)
        · exact ih [] (by simp) w hw
    · rw [if_neg hx] at hw
      refine ih (x :: cur) ?_ w hw
      intro c hc2
      rcases List.mem_cons.mp hc2 with rfl | hc2
      · simpa using hx
      · exact hcur c hc2

lemma splitWs_no_space (s : Str) : ∀ w ∈ splitWs s, ∀ c ∈ w, isPySpace c = false :=
  splitWsAux_no_space s [] (by simp)

lemma pageTokens_good (pageNum : Nat) (paras : List Str) : ∀ cur,
    ∀ t ∈ (pageTokens pageNum cur paras).2, isGoodWord t.word = true := by
  induction paras with
  | nil => intro cur t ht; simp [pageTokens] at ht
  | cons p ps ih =>
    intro cur t ht
    unfold pageTokens at ht
    by_cases hh : looks_like_heading p
    · rw [if_pos hh] at ht
      exact ih (clean_heading p) t ht
    · rw [if_neg hh] at ht
      simp only at ht
      rcases List.mem_append.mp ht with ht | ht
      · obtain ⟨w, hw, rfl⟩ := List.mem_map.mp ht
        have hw2 := List.mem_filter.mp hw
        unfold isGoodWord
        simp only [Bool.and_eq_true]
        constructor
        · simpa using hw2.2
        · rw [List.all_eq_true]
          intro c hc
          simpa using splitWs_no_space p w hw2.1 c hc
      · exact ih cur t ht

lemma build_token_stream_good (pages : List PageRecord) :
    ∀ t ∈ build_token_stream pages, isGoodWord t.word = true := by
  unfold build_token_stream
  generalize "Overview".data = cur
  induction pages generalizing cur with
  | nil => intro t ht; simp [tokenStreamAux] at ht
  | cons pg pgs ih =>
    intro t ht
    unfold tokenStreamAux at ht
    simp only at ht
    rcases List.mem_append.mp ht with ht | ht
    · exact pageTokens_good pg.page_number pg.paragraphs cur t ht
    · exact ih _ t ht



lemma srcChunks_indices (src : SourceDoc) (cfg : IngestConfig)
    (hWO : cfg.overlapWords < cfg.chunkWords) :
    (srcChunks src cfg).map ChunkRecord.chunk_index
      = List.range' 1 (srcChunks src cfg).length := by
  unfold srcChunks
  exact (c3_chunk_windower (build_token_stream src.pages) cfg.chunkWords cfg.overlapWords
    hWO (build_token_stream_good src.pages)).2.2.1

lemma srcPayloads_refs_nodup (src : SourceDoc) (cfg : IngestConfig) (docId v : Nat)
    (hWO : cfg.overlapWords < cfg.chunkWords) :
    ((srcPayloads src cfg docId v).map ChunkRow.source_ref).Nodup := by
  rw [srcPayloads_refs]
  have hidx := srcChunks_indices src cfg hWO
  have hrn : ((srcChunks src cfg).map ChunkRecord.chunk_index).Nodup := by
    rw [hidx]
    exact List.nodup_range' _ _
  refine List.Nodup.map_on ?_ (hrn.of_map ChunkRecord.chunk_index)
  intro x hx y hy hxy
  exact List.inj_on_of_nodup_map hrn hx hy (sourceRefStr_chunk_index hxy)



lemma upsert_chunk_row_mem_self (db : DB) (row : ChunkRow) :
    row ∈ (upsert_chunk_row db row).chunks := by
  unfold upsert_chunk_row
  by_cases h : db.chunks.any (fun c => c.source_ref == row.source_ref)
  · rw [if_pos h]
    obtain ⟨c, hc, hcr⟩ := List.any_eq_true.mp h
    refine List.mem_map.mpr ⟨c, hc, ?_⟩
    rw [if_pos hcr]
  · rw [if_neg h]
    simp

lemma upsert_chunk_row_mem_preserve (db : DB) (row r : ChunkRow)
    (h : r ∈ db.chunks) (hne : row.source_ref ≠ r.source_ref) :
    r ∈ (upsert_chunk_row db row).chunks := by
  unfold upsert_chunk_row
  by_cases hany : db.chunks.any (fun c => c.source_ref == row.source_ref)
  · rw [if_pos hany]
    refine List.mem_map.mpr ⟨r, h, ?_⟩
    rw [if_neg (by simp; exact fun hh => hne hh.symm)]
  · rw [if_neg hany]
    exact List.mem_append_left _ h

lemma upsert_fold_mem_preserve (rows : List ChunkRow) (db : DB) (r : ChunkRow)
    (h : r ∈ db.chunks) (hne : ∀ row ∈ rows, row.source_ref ≠ r.source_ref) :
    r ∈ (rows.foldl upsert_chunk_row db).chunks := by
  induction rows generalizing db with
  | nil => exact h
  | cons x xs ih =>
    rw [List.foldl_cons]
    exact ih (upsert_chunk_row db x)
      (upsert_chunk_row_mem_preserve db x r h (hne x (by simp)))
      (fun row hrow => hne row (by simp [hrow]))

lemma upsert_fold_mem (rows : List ChunkRow) (db : DB)
    (hnd : (rows.map ChunkRow.source_ref).Nodup) :
    ∀ row ∈ rows, row ∈ (rows.foldl upsert_chunk_row db).chunks := by
  induction rows generalizing db with
  | nil => intro row hrow; simp at hrow
  | cons x xs ih =>
    intro row hrow
    rw [List.map_cons, List.nodup_cons] at hnd
    rcases List.mem_cons.mp hrow with rfl | hrow
    · rw [List.foldl_cons]
      refine upsert_fold_mem_preserve xs _ row (upsert_chunk_row_mem_self db row) ?_
      intro r hr heq
      exact hnd.1 (heq ▸ List.mem_map_of_mem ChunkRow.source_ref hr)
    · rw [List.foldl_cons]
      exact ih (upsert_chunk_row db x) hnd.2 row hrow

lemma upsert_batches_as_fold (batches : List (List ChunkRow)) (db : DB) :
    applyOps db (batches.map DbOp.opUpsertChunks) = batches.flatten.foldl upsert_chunk_row db := by
  induction batches generalizing db with
  | nil => rfl
  | cons b bs ih =>
    simp only [List.map_cons, List.flatten_cons]
    unfold applyOps
    rw [List.foldl_cons, List.foldl_append]
    have : applyOp db (DbOp.opUpsertChunks b) = b.foldl upsert_chunk_row db := rfl
    rw [this]
    exact ih (b.foldl upsert_chunk_row db)



/-! ### C2: chunk writes precede the active swap -/

def c2cChunk : ChunkRow :=
  { product_domain := "appliance".data
    brand := none
    model := none
    sectionLabel := "Overview".data
    source_ref := "m:v1:p1-1:c1".data
    content := "old".data
    document_id := 1
    chunk_index := 1
    page_start := 1
    page_end := 1
    token_count := 1 }

/-- A database holding the active version 1 of the source together with
its one chunk row. -/
def c2cDb : DB := { docs := [c5wRow], chunks := [c2cChunk], nextId := 2 }

def c2cCfg : IngestConfig :=
  { force := true, chunkWords := 5, overlapWords := 1, upsertBatchSize := 10 }

/-- C2, counterexample: on a forced reprocess of unchanged, currently
active content the run reaches the commit phase, yet right after its
first database call (the chunk delete of `replace_chunks_for_document`)
the still-active version 1 has zero chunk rows — a reachable intermediate
state in which an active document version has no chunks; and at the
intermediate state after the deactivation step but before the activating
update (which lies "between chunk upsert and the activate step") no
version of the source_key is active at all, so the prior version is not
active there either. -/
theorem c2_counterexample :
    (sourceTrace c2cDb c5wSrc c2cCfg).2 = .committed 1 1 ∧
    (((applyOps c2cDb ((sourceTrace c2cDb c5wSrc c2cCfg).1.take 1)).docs.filter
        (fun r => r.is_active)).map DocRow.id = [1] ∧
     (applyOps c2cDb ((sourceTrace c2cDb c5wSrc c2cCfg).1.take 1)).chunks.filter
        (fun c => c.document_id == 1) = []) ∧
    (applyOps c2cDb ((sourceTrace c2cDb c5wSrc c2cCfg).1.take
        ((sourceTrace c2cDb c5wSrc c2cCfg).1.length - 1))).docs.filter
        (fun r => r.is_active) = [] := by
  decide

/-- C2, amended: in every run reaching the commit phase, the deactivation
of other versions and the activating update are the final two database
calls, after every chunk upsert; a crash right before the deactivation
step leaves every payload chunk row of the new version persisted, every
other document row (in particular any previously active version with a
different id) untouched, and the new version inactive.  The hypotheses
mirror `validate_batch_sizes` (overlap below window size, positive batch
size) and table well-formedness (ids below the generator). -/
theorem c2_chunks_upserted_before_activation (db : DB) (src : SourceDoc)
    (cfg : IngestConfig) (ops : List DbOp) (docId v : Nat)
    (hfresh : ∀ r ∈ db.docs, r.id < db.nextId)
    (hWO : cfg.overlapWords < cfg.chunkWords)
    (hbs : 0 < cfg.upsertBatchSize)
    (h : sourceTrace db src cfg = (ops, .committed docId v)) :
    ∃ pre,
      ops = pre ++ [DbOp.opDeactivateOthers src.source_key docId,
        DbOp.opUpdateDoc docId src.metadata (srcPageCount src) (srcWordCount src)
          (srcStatus src cfg) (srcWarnings src) true] ∧
      (∀ op ∈ ops, (upsertSel op).isSome = true → op ∈ pre) ∧
      (∀ row ∈ srcPayloads src cfg docId v, row ∈ (applyOps db pre).chunks) ∧
      (∀ r ∈ db.docs, r.id ≠ docId → r ∈ (applyOps db pre).docs) ∧
      (∀ r ∈ (applyOps db pre).docs, r.id = docId → r.is_active = false) := by
  obtain ⟨hch, pre0, hops, hbr⟩ := committed_inversion db src cfg ops docId v h
  refine ⟨pre0 ++ (split_batches (srcPayloads src cfg docId v) cfg.upsertBatchSize).map
    DbOp.opUpsertChunks, by rw [hops, List.append_assoc], ?_, ?_, ?_, ?_⟩
  · intro op hop hup
    rw [hops] at hop
    rcases List.mem_append.mp hop with hop | hop
    · exact hop
    · simp only [List.mem_cons, List.not_mem_nil, or_false] at hop
      rcases hop with rfl | rfl <;> simp [upsertSel] at hup
  · intro row hrow
    rw [applyOps_append, upsert_batches_as_fold,
      split_batches_flatten _ _ hbs]
    exact upsert_fold_mem _ _ (srcPayloads_refs_nodup src cfg docId v hWO) row hrow
  · intro r hr hne
    rw [applyOps_append]
    have hdocs := upsert_batches_docs
      (split_batches (srcPayloads src cfg docId v) cfg.upsertBatchSize) (applyOps db pre0)
    rw [hdocs]
    rcases hbr with ⟨row, hfind, hskip, hid, hv, hpre⟩ | ⟨hfind, hid, hv, hpre⟩
    · subst hpre
      have hd : (applyOps db [DbOp.opReplaceChunks row.id,
          DbOp.opUpdateDoc row.id src.metadata (srcPageCount src) (srcWordCount src)
            (srcStatus src cfg) (srcWarnings src) false]).docs
          = db.docs.map (updFn row.id src.metadata (srcPageCount src) (srcWordCount src)
              (srcStatus src cfg) (srcWarnings src) false) := by
        show (update_document_row (replace_chunks_for_document db row.id)
          row.id _ _ _ _ _ _).docs = _
        rw [update_document_row_docs, replace_chunks_docs]
      rw [hd]
      have : updFn row.id src.metadata (srcPageCount src) (srcWordCount src)
          (srcStatus src cfg) (srcWarnings src) false r = r := by
        unfold updFn
        rw [if_neg (by simpa using (hid ▸ hne))]
      rw [← this]
      exact List.mem_map_of_mem _ hr
    · subst hpre
      have hd : (applyOps db [DbOp.opInsertDoc src.source_key src.source_filename
          src.source_sha256 v src.metadata (srcPageCount src) (srcWordCount src)
          (srcStatus src cfg) (srcWarnings src)]).docs
          = db.docs ++ [insertedRow db src.source_key src.source_filename src.source_sha256 v
              src.metadata (srcPageCount src) (srcWordCount src) (srcStatus src cfg)
              (srcWarnings src)] := rfl
      rw [hd]
      exact List.mem_append_left _ hr
  · intro r hr hrid
    rw [applyOps_append] at hr
    have hdocs := upsert_batches_docs
      (split_batches (srcPayloads src cfg docId v) cfg.upsertBatchSize) (applyOps db pre0)
    rw [hdocs] at hr
    rcases hbr with ⟨row, hfind, hskip, hid, hv, hpre⟩ | ⟨hfind, hid, hv, hpre⟩
    · subst hpre
      have hd : (applyOps db [DbOp.opReplaceChunks row.id,
          DbOp.opUpdateDoc row.id src.metadata (srcPageCount src) (srcWordCount src)
            (srcStatus src cfg) (srcWarnings src) false]).docs
          = db.docs.map (updFn row.id src.metadata (srcPageCount src) (srcWordCount src)
              (srcStatus src cfg) (srcWarnings src) false) := by
        show (update_document_row (replace_chunks_for_document db row.id)
          row.id _ _ _ _ _ _).docs = _
        rw [update_document_row_docs, replace_chunks_docs]
      rw [hd] at hr
      obtain ⟨y, hy, rfl⟩ := List.mem_map.mp hr
      have hyid : y.id = row.id := by
        rw [← updFn_id row.id src.metadata (srcPageCount src) (srcWordCount src)
          (srcStatus src cfg) (srcWarnings src) false y, hrid, hid]
      rw [updFn_self _ _ _ _ _ _ _ _ hyid]
    · subst hpre
      have hd : (applyOps db [DbOp.opInsertDoc src.source_key src.source_filename
          src.source_sha256 v src.metadata (srcPageCount src) (srcWordCount src)
          (srcStatus src cfg) (srcWarnings src)]).docs
          = db.docs ++ [insertedRow db src.source_key src.source_filename src.source_sha256 v
              src.metadata (srcPageCount src) (srcWordCount src) (srcStatus src cfg)
              (srcWarnings src)] := rfl
      rw [hd] at hr
      rcases List.mem_append.mp hr with hr | hr
      · exact absurd (hrid ▸ hfresh r hr) (by rw [hid]; exact Nat.lt_irrefl _)
      · simp only [List.mem_singleton] at hr
        subst hr
        rfl


/-- Witness for `c2_chunks_upserted_before_activation`: a committed run
inserting version 2 over an active version 1. -/
theorem c2_chunks_upserted_before_activation_witness :
    ∃ pre,
      (sourceTrace c1wDb c5wSrc c5wCfg).1 = pre ++ [DbOp.opDeactivateOthers c5wSrc.source_key 2,
        DbOp.opUpdateDoc 2 c5wSrc.metadata (srcPageCount c5wSrc) (srcWordCount c5wSrc)
          (srcStatus c5wSrc c5wCfg) (srcWarnings c5wSrc) true] ∧
      (∀ op ∈ (sourceTrace c1wDb c5wSrc c5wCfg).1, (upsertSel op).isSome = true → op ∈ pre) ∧
      (∀ row ∈ srcPayloads c5wSrc c5wCfg 2 2, row ∈ (applyOps c1wDb pre).chunks) ∧
      (∀ r ∈ c1wDb.docs, r.id ≠ 2 → r ∈ (applyOps c1wDb pre).docs) ∧
      (∀ r ∈ (applyOps c1wDb pre).docs, r.id = 2 → r.is_active = false) :=
  c2_chunks_upserted_before_activation c1wDb c5wSrc c5wCfg
    (sourceTrace c1wDb c5wSrc c5wCfg).1 2 2 (by decide) (by decide) (by decide) (by decide)


/-! ### C9 machinery: canonical form of normalized text -/

/-- Every whitespace character is a plain space. -/
def WsOk (p : Str) : Prop := ∀ c ∈ p, isPySpace c = true → c = ' '

/-- No two adjacent whitespace characters. -/
def NoPair (p : Str) : Prop :=
  List.Chain' (fun a b => ¬(isPySpace a = true ∧ isPySpace b = true)) p

def headNotWs : Str → Bool
  | [] => true
  | c :: _ => !isPySpace c

/-- A canonical paragraph: non-empty, single interior spaces only, no
whitespace at either end. -/
def CleanPara (p : Str) : Prop :=
  p ≠ [] ∧ WsOk p ∧ NoPair p ∧ headNotWs p = true ∧ headNotWs p.reverse = true

lemma wsOk_nil : WsOk [] := by intro c hc; simp at hc

lemma wsOk_cons {c : Char} {p : Str} (h : WsOk (c :: p)) : WsOk p :=
  fun d hd => h d (List.mem_cons_of_mem c hd)

lemma noPair_cons {c : Char} {p : Str} (h : NoPair (c :: p)) : NoPair p :=
  (List.chain'_cons'.mp h).2

lemma collapseWsAux_wsOk (l : Str) : ∀ b, WsOk (collapseWsAux b l) := by
  induction l with
  | nil => intro b; exact wsOk_nil
  | cons c rest ih =>
    intro b
    unfold collapseWsAux
    by_cases hc : isPySpace c
    · rw [if_pos hc]
      by_cases hb : b
      · rw [if_pos hb]; exact ih true
      · rw [if_neg hb]
        intro d hd hdw
        rcases List.mem_cons.mp hd with rfl | hd
        · rfl
        · exact ih true d hd hdw
    · rw [if_neg hc]
      intro d hd hdw
      rcases List.mem_cons.mp hd with rfl | hd
      · exact absurd hdw (by simpa using hc)
      · exact ih false d hd hdw

lemma collapseWsAux_headNotWs (l : Str) : headNotWs (collapseWsAux true l) = true := by
  induction l with
  | nil => rfl
  | cons c rest ih =>
    unfold collapseWsAux
    by_cases hc : isPySpace c
    · rw [if_pos hc, if_pos rfl]
      exact ih
    · rw [if_neg hc]
      simpa [headNotWs] using hc

lemma collapseWsAux_noPair (l : Str) : ∀ b, NoPair (collapseWsAux b l) := by
  induction l with
  | nil => intro b; exact List.chain'_nil
  | cons c rest ih =>
    intro b
    unfold collapseWsAux
    by_cases hc : isPySpace c
    · rw [if_pos hc]
      by_cases hb : b
      · rw [if_pos hb]; exact ih true
      · rw [if_neg hb]
        refine List.chain'_cons'.mpr ⟨?_, ih true⟩
        intro y hy
        have hh := collapseWsAux_headNotWs rest
        intro ⟨_, hyw⟩
        rcases hhd : collapseWsAux true rest with _ | ⟨z, zs⟩
        · rw [hhd] at hy; simp at hy
        · rw [hhd] at hy hh
          simp only [List.head?_cons, Option.mem_def, Option.some.injEq] at hy
          subst hy
          simp only [headNotWs, Bool.not_eq_true'] at hh
          rw [hh] at hyw
          exact absurd hyw (by simp)
    · rw [if_neg hc]
      refine List.chain'_cons'.mpr ⟨?_, ih false⟩
      intro y hy
      intro ⟨hcw, _⟩
      exact absurd hcw (by simpa using hc)

lemma dropWhile_wsOk {p : Str} (h : WsOk p) (f : Char → Bool) : WsOk (p.dropWhile f) :=
  fun c hc => h c ((List.dropWhile_sublist f).subset hc)

lemma reverse_wsOk {p : Str} (h : WsOk p) : WsOk p.reverse :=
  fun c hc => h c (List.mem_reverse.mp hc)

lemma dropWhile_noPair {p : Str} (h : NoPair p) (f : Char → Bool) : NoPair (p.dropWhile f) := by
  induction p with
  | nil => exact List.chain'_nil
  | cons c rest ih =>
    rw [List.dropWhile_cons]
    by_cases hf : f c
    · rw [if_pos (by simpa using hf)]
      exact ih (noPair_cons h)
    · rw [if_neg (by simpa using hf)]
      exact h

lemma reverse_noPair {p : Str} (h : NoPair p) : NoPair p.reverse := by
  rw [NoPair, List.chain'_reverse]
  refine h.imp ?_
  intro a b hab ⟨h1, h2⟩
  exact hab ⟨h2, h1⟩

lemma stripWs_wsOk {p : Str} (h : WsOk p) : WsOk (stripWs p) := by
  unfold stripWs dropTrailWs
  exact reverse_wsOk (dropWhile_wsOk (reverse_wsOk (dropWhile_wsOk h _)) _)

lemma stripWs_noPair {p : Str} (h : NoPair p) : NoPair (stripWs p) := by
  unfold stripWs dropTrailWs
  exact reverse_noPair (dropWhile_noPair (reverse_noPair (dropWhile_noPair h _)) _)

lemma headNotWs_dropWhileWs (p : Str) : headNotWs (p.dropWhile isPySpace) = true := by
  induction p with
  | nil => rfl
  | cons c rest ih =>
    rw [List.dropWhile_cons]
    by_cases hc : isPySpace c
    · rw [if_pos (by simpa using hc)]; exact ih
    · rw [if_neg (by simpa using hc)]
      simpa [headNotWs] using hc

lemma dropTrailWs_decomp (p : Str) :
    dropTrailWs p ++ (p.reverse.takeWhile isPySpace).reverse = p := by
  unfold dropTrailWs
  rw [← List.reverse_append, List.takeWhile_append_dropWhile, List.reverse_reverse]

lemma dropTrailWs_head {p : Str} (h : headNotWs p = true) :
    headNotWs (dropTrailWs p) = true := by
  rcases hd : dropTrailWs p with _ | ⟨c, cs⟩
  · rfl
  · have hpre := dropTrailWs_decomp p
    rw [← hpre, hd] at h
    simpa [headNotWs] using h

lemma dropTrailWs_lastNotWs (p : Str) : headNotWs (dropTrailWs p).reverse = true := by
  unfold dropTrailWs
  rw [List.reverse_reverse]
  exact headNotWs_dropWhileWs p.reverse

lemma stripWs_headNotWs (p : Str) : headNotWs (stripWs p) = true := by
  unfold stripWs
  exact dropTrailWs_head (headNotWs_dropWhileWs p)

lemma stripWs_lastNotWs (p : Str) : headNotWs (stripWs p).reverse = true := by
  unfold stripWs
  exact dropTrailWs_lastNotWs _

/-- `cleanLine` output is empty or a canonical paragraph. -/
lemma cleanLine_clean (l : Str) : cleanLine l = [] ∨ CleanPara (cleanLine l) := by
  rcases hc : cleanLine l with _ | ⟨c, cs⟩
  · exact Or.inl rfl
  · right
    refine ⟨by simp, ?_, ?_, ?_, ?_⟩
    · rw [← hc]
      exact stripWs_wsOk (collapseWsAux_wsOk l false)
    · rw [← hc]
      exact stripWs_noPair (collapseWsAux_noPair l false)
    · rw [← hc]
      exact stripWs_headNotWs _
    · rw [← hc]
      exact stripWs_lastNotWs _



lemma getLast?_not_ws {p : Str} (h : headNotWs p.reverse = true) :
    ∀ x, p.getLast? = some x → isPySpace x = false := by
  intro x hx
  rw [← List.head?_reverse] at hx
  rcases hr : p.reverse with _ | ⟨c, cs⟩
  · rw [hr] at hx; simp at hx
  · rw [hr] at hx h
    simp only [List.head?_cons, Option.some.injEq] at hx
    subst hx
    simpa [headNotWs] using h

lemma wsOk_append {a b : Str} (ha : WsOk a) (hb : WsOk b) : WsOk (a ++ b) := by
  intro c hc
  rcases List.mem_append.mp hc with h | h
  · exact ha c h
  · exact hb c h

lemma headNotWs_append_left {a : Str} (b : Str) (ha : a ≠ []) :
    headNotWs (a ++ b) = headNotWs a := by
  rcases a with _ | ⟨c, cs⟩
  · exact absurd rfl ha
  · rfl

lemma lastNotWs_append_right (a : Str) {b : Str} (hb : b ≠ []) :
    headNotWs (a ++ b).reverse = headNotWs b.reverse := by
  rw [List.reverse_append]
  exact headNotWs_append_left a.reverse (by simpa using hb)

lemma joinSp_clean : ∀ (bufs : List Str), bufs ≠ [] → (∀ b ∈ bufs, CleanPara b) →
    CleanPara (joinSp bufs) := by
  intro bufs
  induction bufs with
  | nil => intro h; exact absurd rfl h
  | cons p rest ih =>
    intro _ hall
    rcases rest with _ | ⟨q, rest'⟩
    · exact hall p (by simp)
    · have hp := hall p (by simp)
      have hJ : CleanPara (joinSp (q :: rest')) :=
        ih (by simp) (fun b hb => hall b (List.mem_cons_of_mem p hb))
      show CleanPara (p ++ ' ' :: joinSp (q :: rest'))
      obtain ⟨hpne, hpws, hpnp, hphd, hplw⟩ := hp
      obtain ⟨hJne, hJws, hJnp, hJhd, hJlw⟩ := hJ
      refine ⟨by simp, ?_, ?_, ?_, ?_⟩
      · refine wsOk_append hpws ?_
        intro c hc
        rcases List.mem_cons.mp hc with rfl | hc
        · intro; rfl
        · exact hJws c hc
      · rw [NoPair, List.chain'_append]
        refine ⟨hpnp, ?_, ?_⟩
        · refine List.chain'_cons'.mpr ⟨?_, hJnp⟩
          intro y hy ⟨_, hyw⟩
          rcases hJh : joinSp (q :: rest') with _ | ⟨z, zs⟩
          · rw [hJh] at hy; simp at hy
          · rw [hJh] at hy hJhd
            simp only [List.head?_cons, Option.mem_def, Option.some.injEq] at hy
            subst hy
            simp only [headNotWs, Bool.not_eq_true'] at hJhd
            rw [hJhd] at hyw
            exact absurd hyw (by simp)
        · intro x hx y hy ⟨hxw, _⟩
          simp only [List.head?_cons, Option.mem_def, Option.some.injEq] at hy
          have := getLast?_not_ws hplw x (by simpa using hx)
          rw [this] at hxw
          exact absurd hxw (by simp)
      · rw [headNotWs_append_left _ hpne]
        exact hphd
      · rw [lastNotWs_append_right p (by simp)]
        rcases hJh : joinSp (q :: rest') with _ | ⟨z, zs⟩
        · exact absurd hJh hJne
        · rw [hJh] at hJlw
          show headNotWs ((' ' :: z :: zs).reverse) = true
          rw [show (' ' :: z :: zs) = [' '] ++ (z :: zs) from rfl,
            lastNotWs_append_right [' '] (by simp)]
          exact hJlw

lemma collapseWsAux_id : ∀ (p : Str) (b : Bool), WsOk p → NoPair p →
    (b = true → headNotWs p = true) → collapseWsAux b p = p := by
  intro p
  induction p with
  | nil => intro b _ _ _; rfl
  | cons c rest ih =>
    intro b hws hnp hb
    unfold collapseWsAux
    by_cases hc : isPySpace c
    · have hbf : b = false := by
        cases b
        · rfl
        · have := hb rfl
          simp only [headNotWs, Bool.not_eq_true'] at this
          rw [this] at hc
          exact absurd hc (by simp)
      rw [if_pos hc, hbf, if_neg (by simp)]
      have hsp : c = ' ' := hws c (by simp) (by simpa using hc)
      have hrest : collapseWsAux true rest = rest := by
        refine ih true (wsOk_cons hws) (noPair_cons hnp) ?_
        intro
        rcases rest with _ | ⟨d, ds⟩
        · rfl
        · have hpair := List.chain'_cons.mp hnp
          simp only [headNotWs, Bool.not_eq_true']
          by_contra hd
          exact hpair.1 ⟨by simpa using hc, by simpa using hd⟩
      rw [hrest, hsp]
    · rw [if_neg hc]
      rw [ih false (wsOk_cons hws) (noPair_cons hnp) (by simp)]

lemma dropWhile_id_of_headNotWs {p : Str} (h : headNotWs p = true) :
    p.dropWhile isPySpace = p := by
  rcases p with _ | ⟨c, cs⟩
  · rfl
  · rw [List.dropWhile_cons, if_neg]
    simpa [headNotWs] using h

lemma dropTrailWs_id {p : Str} (h : headNotWs p.reverse = true) : dropTrailWs p = p := by
  unfold dropTrailWs
  rw [dropWhile_id_of_headNotWs h, List.reverse_reverse]

lemma stripWs_id {p : Str} (h1 : headNotWs p = true) (h2 : headNotWs p.reverse = true) :
    stripWs p = p := by
  unfold stripWs
  rw [dropWhile_id_of_headNotWs h1, dropTrailWs_id h2]

lemma cleanLine_id {p : Str} (h : CleanPara p) : cleanLine p = p := by
  obtain ⟨_, hws, hnp, hhd, hlw⟩ := h
  unfold cleanLine collapseWs
  rw [collapseWsAux_id p false hws hnp (by simp), stripWs_id hhd hlw]

lemma mem_collapseWsAux {c : Char} : ∀ (l : Str) (b : Bool), c ∈ l → isPySpace c = false →
    c ∈ collapseWsAux b l := by
  intro l
  induction l with
  | nil => intro b hc; simp at hc
  | cons d rest ih =>
    intro b hc hcw
    unfold collapseWsAux
    by_cases hd : isPySpace d
    · have hne : c ≠ d := by
        intro h
        rw [h] at hcw
        rw [hcw] at hd
        exact absurd hd (by simp)
      have hcr : c ∈ rest := by
        rcases List.mem_cons.mp hc with rfl | hc
        · exact absurd rfl hne
        · exact hc
      rw [if_pos hd]
      by_cases hb : b
      · rw [if_pos hb]; exact ih true hcr hcw
      · rw [if_neg hb]
        exact List.mem_cons_of_mem _ (ih true hcr hcw)
    · rw [if_neg hd]
      rcases List.mem_cons.mp hc with rfl | hc
      · simp
      · exact List.mem_cons_of_mem _ (ih false hc hcw)

lemma collapseWsAux_all_space {l : Str} (h : ∀ c ∈ l, isPySpace c = true) :
    ∀ b, ∀ c ∈ collapseWsAux b l, c = ' ' := by
  induction l with
  | nil => intro b c hc; simp [collapseWsAux] at hc
  | cons d rest ih =>
    intro b c hc
    unfold collapseWsAux at hc
    rw [if_pos (by simpa using h d (by simp))] at hc
    by_cases hb : b
    · rw [if_pos hb] at hc
      exact ih (fun x hx => h x (List.mem_cons_of_mem d hx)) true c hc
    · rw [if_neg hb] at hc
      rcases List.mem_cons.mp hc with rfl | hc
      · rfl
      · exact ih (fun x hx => h x (List.mem_cons_of_mem d hx)) true c hc

lemma stripWs_all_ws {l : Str} (h : ∀ c ∈ l, isPySpace c = true) : stripWs l = [] := by
  unfold stripWs
  rw [List.dropWhile_eq_nil_iff.mpr h]
  rfl

lemma cleanLine_eq_nil_iff (l : Str) : cleanLine l = [] ↔ ∀ c ∈ l, isPySpace c = true := by
  constructor
  · intro h c hc
    by_contra hcw
    have hmem : c ∈ collapseWs l := mem_collapseWsAux l false hc (by simpa using hcw)
    have := stripWs_eq_nil_imp h c hmem
    exact hcw this
  · intro h
    unfold cleanLine
    apply stripWs_all_ws
    intro c hc
    have := collapseWsAux_all_space h false c hc
    rw [this]
    rfl

lemma groupParas_clean : ∀ (lines : List Str) (buf : List Str),
    (∀ b ∈ buf, CleanPara b) → (∀ x ∈ lines, x = [] ∨ CleanPara x) →
    ∀ p ∈ groupParas buf lines, CleanPara p := by
  intro lines
  induction lines with
  | nil =>
    intro buf hbuf _ p hp
    unfold groupParas at hp
    by_cases hb : buf.isEmpty
    · rw [if_pos hb] at hp; simp at hp
    · rw [if_neg hb] at hp
      simp only [List.mem_singleton] at hp
      subst hp
      have hclean := joinSp_clean buf (by simpa [List.isEmpty_iff] using hb) hbuf
      rw [stripWs_id hclean.2.2.2.1 hclean.2.2.2.2]
      exact hclean
  | cons line rest ih =>
    intro buf hbuf hlines p hp
    unfold groupParas at hp
    by_cases hl : line.isEmpty
    · rw [if_pos hl] at hp
      by_cases hb : buf.isEmpty
      · rw [if_pos hb] at hp
        exact ih [] (by simp) (fun x hx => hlines x (List.mem_cons_of_mem _ hx)) p hp
      · rw [if_neg hb] at hp
        rcases List.mem_cons.mp hp with rfl | hp
        · have hclean := joinSp_clean buf (by simpa [List.isEmpty_iff] using hb) hbuf
          rw [stripWs_id hclean.2.2.2.1 hclean.2.2.2.2]
          exact hclean
        · exact ih [] (by simp) (fun x hx => hlines x (List.mem_cons_of_mem _ hx)) p hp
    · rw [if_neg hl] at hp
      refine ih (buf ++ [line]) ?_ (fun x hx => hlines x (List.mem_cons_of_mem _ hx)) p hp
      intro b hb
      rcases List.mem_append.mp hb with hb | hb
      · exact hbuf b hb
      · simp only [List.mem_singleton] at hb
        subst hb
        rcases hlines b (by simp) with h | h
        · exact absurd h (by simpa [List.isEmpty_iff] using hl)
        · exact h



/-- `"\n".join` — the inverse of `splitNl`. -/
def joinNl : List Str → Str
  | [] => []
  | [l] => l
  | l :: l2 :: rest => l ++ '\n' :: joinNl (l2 :: rest)

lemma splitNl_cons_ne {c : Char} (rest : Str) (hc : c ≠ '\n') :
    splitNl (c :: rest) = match splitNl rest with
      | h :: t => (c :: h) :: t
      | [] => [[c]] := by
  rw [splitNl.eq_def]
  split
  · rename_i heq
    simp at heq
  · rename_i heq
    injection heq with h1 _
    exact absurd h1 hc
  · rename_i heq
    injection heq with h1 h2
    subst h1
    subst h2
    rfl

lemma splitNl_ne_nil (s : Str) : splitNl s ≠ [] := by
  induction s with
  | nil => simp [splitNl]
  | cons c rest ih =>
    by_cases hc : c = '\n'
    · subst hc
      simp [splitNl]
    · rw [splitNl_cons_ne rest hc]
      rcases splitNl rest with _ | ⟨h, t⟩ <;> simp

lemma joinNl_splitNl (s : Str) : joinNl (splitNl s) = s := by
  induction s with
  | nil => rfl
  | cons c rest ih =>
    by_cases hc : c = '\n'
    · subst hc
      show joinNl ([] :: splitNl rest) = '\n' :: rest
      rcases hs : splitNl rest with _ | ⟨h, t⟩
      · exact absurd hs (splitNl_ne_nil rest)
      · show [] ++ '\n' :: joinNl (h :: t) = '\n' :: rest
        rw [← hs, ih]
        rfl
    · rw [splitNl_cons_ne rest hc]
      rcases hs : splitNl rest with _ | ⟨h, t⟩
      · exact absurd hs (splitNl_ne_nil rest)
      · rw [hs] at ih
        rcases t with _ | ⟨t1, ts⟩
        · show c :: h = c :: rest
          have : joinNl [h] = h := rfl
          rw [this] at ih
          rw [ih]
        · show (c :: h) ++ '\n' :: joinNl (t1 :: ts) = c :: rest
          have : joinNl (h :: t1 :: ts) = h ++ '\n' :: joinNl (t1 :: ts) := rfl
          rw [this] at ih
          rw [List.cons_append, ih]

lemma splitNl_no_nl_id (a : Str) (ha : '\n' ∉ a) : splitNl a = [a] := by
  induction a with
  | nil => rfl
  | cons c rest ih =>
    have hc : c ≠ '\n' := fun h => ha (h ▸ List.mem_cons_self c rest)
    rw [splitNl_cons_ne rest hc, ih (fun h => ha (List.mem_cons_of_mem c h))]

lemma splitNl_append_nl (a s : Str) (ha : '\n' ∉ a) :
    splitNl (a ++ '\n' :: s) = a :: splitNl s := by
  induction a with
  | nil =>
    show splitNl ('\n' :: s) = [] :: splitNl s
    rfl
  | cons c rest ih =>
    have hc : c ≠ '\n' := fun h => ha (h ▸ List.mem_cons_self c rest)
    rw [List.cons_append, splitNl_cons_ne _ hc, ih (fun h => ha (List.mem_cons_of_mem c h))]

lemma splitNlNl_cons_ne {c : Char} (rest : Str) (hc : c ≠ '\n') :
    splitNlNl (c :: rest) = match splitNlNl rest with
      | h :: t => (c :: h) :: t
      | [] => [[c]] := by
  rw [splitNlNl.eq_def]
  split
  · rename_i heq
    simp at heq
  · rename_i heq
    injection heq with h1 _
    exact absurd h1 hc
  · rename_i heq
    injection heq with h1 h2
    subst h1
    subst h2
    rfl

/-- The line list form of `"\n\n"`-joined paragraphs. -/
def expl : List Str → List Str
  | [] => [[]]
  | [q] => [q]
  | q :: q2 :: rest => q :: [] :: expl (q2 :: rest)

lemma splitNl_joinNlNl : ∀ qs : List Str, (∀ q ∈ qs, '\n' ∉ q) →
    splitNl (joinNlNl qs) = expl qs := by
  intro qs
  induction qs with
  | nil => intro _; rfl
  | cons q rest ih =>
    intro hq
    rcases rest with _ | ⟨q2, rest'⟩
    · exact splitNl_no_nl_id q (hq q (by simp))
    · show splitNl (q ++ '\n' :: '\n' :: joinNlNl (q2 :: rest')) = q :: [] :: expl (q2 :: rest')
      rw [splitNl_append_nl q _ (hq q (by simp))]
      congr 1
      show [] :: splitNl (joinNlNl (q2 :: rest')) = [] :: expl (q2 :: rest')
      rw [ih (fun x hx => hq x (List.mem_cons_of_mem q hx))]

lemma splitNlNl_joinNlNl : ∀ qs : List Str, (∀ q ∈ qs, '\n' ∉ q) →
    splitNlNl (joinNlNl qs) = if qs = [] then [[]] else qs := by
  intro qs
  induction qs with
  | nil => intro _; rfl
  | cons q rest ih =>
    intro hq
    rw [if_neg (by simp)]
    rcases rest with _ | ⟨q2, rest'⟩
    · show splitNlNl q = [q]
      have hnl : '\n' ∉ q := hq q (by simp)
      clear ih hq
      induction q with
      | nil => rfl
      | cons c cs ihq =>
        have hc : c ≠ '\n' := fun h => hnl (h ▸ List.mem_cons_self c cs)
        rw [splitNlNl_cons_ne cs hc, ihq (fun h => hnl (List.mem_cons_of_mem c h))]
    · show splitNlNl (q ++ '\n' :: '\n' :: joinNlNl (q2 :: rest')) = q :: q2 :: rest'
      have hihq := ih (fun x hx => hq x (List.mem_cons_of_mem q hx))
      rw [if_neg (by simp)] at hihq
      have hnl : '\n' ∉ q := hq q (by simp)
      have happ : ∀ a : Str, '\n' ∉ a →
          splitNlNl (a ++ '\n' :: '\n' :: joinNlNl (q2 :: rest'))
            = a :: splitNlNl (joinNlNl (q2 :: rest')) := by
        intro a
        induction a with
        | nil => intro _; rfl
        | cons c cs iha =>
          intro hna
          have hc : c ≠ '\n' := fun h => hna (h ▸ List.mem_cons_self c cs)
          rw [List.cons_append, splitNlNl_cons_ne _ hc,
            iha (fun h => hna (List.mem_cons_of_mem c h))]
      rw [happ q hnl, hihq]

lemma groupParas_expl : ∀ qs : List Str, (∀ q ∈ qs, CleanPara q) →
    groupParas [] ((expl qs).map cleanLine) = qs := by
  intro qs
  induction qs with
  | nil => intro _; rfl
  | cons q rest ih =>
    intro hq
    have hqc := hq q (by simp)
    have hcl : cleanLine q = q := cleanLine_id hqc
    rcases rest with _ | ⟨q2, rest'⟩
    · show groupParas [] [cleanLine q] = [q]
      rw [hcl]
      unfold groupParas
      rw [if_neg (by simpa [List.isEmpty_iff] using hqc.1)]
      unfold groupParas
      rw [if_neg (by simp)]
      show [stripWs (joinSp [q])] = [q]
      have : joinSp [q] = q := rfl
      rw [this, stripWs_id hqc.2.2.2.1 hqc.2.2.2.2]
    · show groupParas [] (cleanLine q :: cleanLine [] :: (expl (q2 :: rest')).map cleanLine)
        = q :: q2 :: rest'
      rw [hcl]
      have hclnil : cleanLine ([] : Str) = [] := rfl
      rw [hclnil]
      unfold groupParas
      rw [if_neg (by simpa [List.isEmpty_iff] using hqc.1)]
      unfold groupParas
      rw [if_pos (by simp), if_neg (by simp)]
      show stripWs (joinSp [q]) :: groupParas [] ((expl (q2 :: rest')).map cleanLine)
        = q :: q2 :: rest'
      have : stripWs (joinSp [q]) = q := by
        have hj : joinSp [q] = q := rfl
        rw [hj, stripWs_id hqc.2.2.2.1 hqc.2.2.2.2]
      rw [this, ih (fun x hx => hq x (List.mem_cons_of_mem q hx))]


def headWord : Str → Bool
  | [] => false
  | c :: _ => isWordChar c

/-- The text contains no active hyphenation-repair site: scanning with
the lookbehind state, no word-preceded `'-'` is followed by a
newline-containing whitespace run and a word character. -/
def hyphClean : Bool → Str → Bool
  | _, [] => true
  | prevW, c :: rest =>
    (if c == '-' then !(prevW && hyphApplies rest) else true) &&
      hyphClean (isWordChar c) rest

/-- The lookbehind state after scanning `xs`. -/
def hcSt (b : Bool) (xs : Str) : Bool := xs.foldl (fun _ c => isWordChar c) b

lemma hcSt_cons (b : Bool) (c : Char) (xs : Str) : hcSt b (c :: xs) = hcSt (isWordChar c) xs := rfl

lemma hcSt_append_last (b : Bool) (xs : Str) (a : Char) : hcSt b (xs ++ [a]) = isWordChar a := by
  induction xs generalizing b with
  | nil => rfl
  | cons c cs ih => exact ih (isWordChar c)

lemma hyphClean_append {b : Bool} {xs ys : Str} (h : hyphClean b (xs ++ ys) = true) :
    hyphClean (hcSt b xs) ys = true := by
  induction xs generalizing b with
  | nil => exact h
  | cons c cs ih =>
    rw [List.cons_append] at h
    unfold hyphClean at h
    rw [Bool.and_eq_true] at h
    exact ih h.2

lemma ws_not_word {c : Char} (h : isPySpace c = true) : isWordChar c = false := by
  simp only [isPySpace, Bool.or_eq_true, beq_iff_eq] at h
  rcases h with ((((h | h) | h) | h) | h) | h <;> subst h <;> decide

lemma ws_not_dash {c : Char} (h : isPySpace c = true) : c ≠ '-' := by
  intro hd
  subst hd
  simp [isPySpace] at h

lemma word_not_dash {c : Char} (h : isWordChar c = true) : c ≠ '-' := by
  intro hd
  subst hd
  simp [isWordChar, Char.isAlphanum, Char.isAlpha, Char.isUpper, Char.isLower,
    Char.isDigit] at h

lemma dash_not_word : isWordChar '-' = false := by decide

lemma hcSt_all_ws {run : Str} (h : ∀ c ∈ run, isPySpace c = true) (b : Bool)
    (hb : b = false) : hcSt b run = false := by
  induction run generalizing b with
  | nil => exact hb
  | cons c cs ih =>
    rw [hcSt_cons]
    exact ih (fun x hx => h x (List.mem_cons_of_mem c hx)) (isWordChar c)
      (ws_not_word (h c (by simp)))

lemma dehyphAux_ws_run : ∀ (run : Str) (b : Bool) (rest : Str),
    (∀ c ∈ run, isPySpace c = true) →
    dehyphAux b 0 (run ++ rest) = run ++ dehyphAux (hcSt b run) 0 rest := by
  intro run
  induction run with
  | nil => intro b rest _; rfl
  | cons c cs ih =>
    intro b rest hws
    have hcw := hws c (by simp)
    show dehyphAux b 0 (c :: (cs ++ rest)) = c :: (cs ++ dehyphAux (hcSt b (c :: cs)) 0 rest)
    unfold dehyphAux
    rw [if_neg (by simp [ws_not_dash hcw])]
    rw [ih (isWordChar c) rest (fun x hx => hws x (List.mem_cons_of_mem c hx))]
    rw [hcSt_cons, ← dehyphAux.eq_def]

lemma dehyphAux_skip : ∀ (xs : Str) (b : Bool) (rest : Str),
    dehyphAux b xs.length (xs ++ rest) = dehyphAux (hcSt b xs) 0 rest := by
  intro xs
  induction xs with
  | nil => intro b rest; rfl
  | cons c cs ih =>
    intro b rest
    show dehyphAux b (cs.length + 1) (c :: (cs ++ rest)) = dehyphAux (hcSt b (c :: cs)) 0 rest
    rw [show dehyphAux b (cs.length + 1) (c :: (cs ++ rest))
      = dehyphAux (isWordChar c) cs.length (cs ++ rest) from rfl]
    exact ih (isWordChar c) rest

lemma takeWhile_append_all {p : Char → Bool} {a : Str} (x : Char) (t : Str)
    (ha : ∀ c ∈ a, p c = true) (hx : p x = false) :
    (a ++ x :: t).takeWhile p = a := by
  induction a with
  | nil => simp [List.takeWhile, hx]
  | cons c cs ih =>
    rw [List.cons_append, List.takeWhile_cons, if_pos (by simpa using ha c (by simp))]
    rw [ih (fun d hd => ha d (List.mem_cons_of_mem c hd))]

lemma dropWhile_append_all {p : Char → Bool} {a : Str} (x : Char) (t : Str)
    (ha : ∀ c ∈ a, p c = true) (hx : p x = false) :
    (a ++ x :: t).dropWhile p = x :: t := by
  induction a with
  | nil => simp [List.dropWhile, hx]
  | cons c cs ih =>
    rw [List.cons_append, List.dropWhile_cons, if_pos (by simpa using ha c (by simp))]
    exact ih (fun d hd => ha d (List.mem_cons_of_mem c hd))

lemma hyphApplies_preserved {rest : Str} (h : hyphApplies rest = false) :
    hyphApplies (dehyphAux false 0 rest) = false := by
  have hsplit := List.takeWhile_append_dropWhile isPySpace rest
  have hrun : ∀ c ∈ rest.takeWhile isPySpace, isPySpace c = true :=
    fun c hc => List.mem_takeWhile_imp hc
  rcases hd : rest.dropWhile isPySpace with _ | ⟨x, r3⟩
  · have hall : ∀ c ∈ rest, isPySpace c = true := by
      rw [List.dropWhile_eq_nil_iff] at hd
      exact hd
    have : dehyphAux false 0 rest = rest ++ dehyphAux false 0 [] := by
      have := dehyphAux_ws_run rest false [] hall
      rw [hcSt_all_ws hall false rfl] at this
      simpa using this
    simp only [dehyphAux, List.append_nil] at this
    rw [this]
    unfold hyphApplies
    rw [hd]
    simp
  · have hx : isPySpace x = false := by
      have hh := headNotWs_dropWhileWs rest
      rw [hd] at hh
      simpa [headNotWs] using hh
    have hout : dehyphAux false 0 rest
        = rest.takeWhile isPySpace ++ (x :: dehyphAux (isWordChar x) 0 r3) := by
      conv_lhs => rw [← hsplit]
      rw [dehyphAux_ws_run _ false _ hrun, hcSt_all_ws hrun false rfl, hd]
      congr 1
      show dehyphAux false 0 (x :: r3) = x :: dehyphAux (isWordChar x) 0 r3
      unfold dehyphAux
      rw [if_neg (by simp)]
      rw [← dehyphAux.eq_def]
    rw [hout]
    unfold hyphApplies
    rw [takeWhile_append_all x _ hrun hx, dropWhile_append_all x _ hrun hx]
    unfold hyphApplies at h
    rw [hd] at h
    exact h

end Ingest
namespace Ingest

lemma dehyphAux_cons (b : Bool) (c : Char) (rest : Str) :
    dehyphAux b 0 (c :: rest)
      = if (c == '-' && b && hyphApplies rest) = true
        then dehyphAux (isWordChar c) (rest.takeWhile isPySpace).length rest
        else c :: dehyphAux (isWordChar c) 0 rest := by
  rw [dehyphAux.eq_def]

/-- On hyphen-clean text the repair pass is the identity. -/
lemma dehyphAux_id : ∀ (l : Str) (b : Bool), hyphClean b l = true → dehyphAux b 0 l = l := by
  intro l
  induction l with
  | nil => intro b _; rfl
  | cons c rest ih =>
    intro b h
    unfold hyphClean at h
    rw [Bool.and_eq_true] at h
    rw [dehyphAux_cons, if_neg ?hneg, ih (isWordChar c) h.2]
    case hneg =>
      intro hcond
      simp only [Bool.and_eq_true, beq_iff_eq] at hcond
      obtain ⟨⟨hdash, hb⟩, happ⟩ := hcond
      rw [if_pos (by simpa using hdash)] at h
      have h1 := h.1
      rw [hb, happ] at h1
      simp at h1

/-- The repair pass yields hyphen-clean text. -/
lemma dehyphAux_clean : ∀ (n : Nat) (l : Str), l.length ≤ n → ∀ b,
    hyphClean b (dehyphAux b 0 l) = true := by
  intro n
  induction n with
  | zero =>
    intro l hl b
    rcases l with _ | ⟨c, rest⟩
    · rfl
    · simp at hl
  | succ n ih =>
    intro l hl b
    rcases l with _ | ⟨c, rest⟩
    · rfl
    by_cases hcond : (c == '-' && b && hyphApplies rest) = true
    · rw [dehyphAux_cons, if_pos hcond]
      simp only [Bool.and_eq_true, beq_iff_eq] at hcond
      obtain ⟨⟨hdash, hb⟩, happ⟩ := hcond
      have hsplit := List.takeWhile_append_dropWhile isPySpace rest
      have hrun : ∀ x ∈ rest.takeWhile isPySpace, isPySpace x = true :=
        fun x hx => List.mem_takeWhile_imp hx
      unfold hyphApplies at happ
      rw [Bool.and_eq_true] at happ
      rcases hdrop : rest.dropWhile isPySpace with _ | ⟨w, r3⟩
      · rw [hdrop] at happ
        simp at happ
      · have hw : isWordChar w = true := by
          have h2 := happ.2
          rw [hdrop] at h2
          simpa using h2
        have hrest : rest = rest.takeWhile isPySpace ++ (w :: r3) := by
          conv_lhs => rw [← hsplit]
          rw [hdrop]
        have hlen3 : r3.length + 1 ≤ n := by
          have hlen := congrArg List.length hrest
          rw [List.length_append] at hlen
          simp only [List.length_cons] at hlen hl
          omega
        have hst : hcSt (isWordChar c) (rest.takeWhile isPySpace) = false := by
          subst hdash
          exact hcSt_all_ws hrun _ dash_not_word
        have hskip : dehyphAux (isWordChar c) (rest.takeWhile isPySpace).length rest
            = dehyphAux false 0 (w :: r3) := by
          have h1 := dehyphAux_skip (rest.takeWhile isPySpace) (isWordChar c) (w :: r3)
          rw [← hrest, hst] at h1
          exact h1
        have hcons : dehyphAux false 0 (w :: r3) = w :: dehyphAux (isWordChar w) 0 r3 := by
          rw [dehyphAux_cons, if_neg (by simp)]
        rw [hskip, hcons]
        unfold hyphClean
        rw [Bool.and_eq_true]
        constructor
        · rw [if_neg (by simpa using word_not_dash hw)]
        · exact ih r3 (by omega) (isWordChar w)
    · rw [dehyphAux_cons, if_neg hcond]
      unfold hyphClean
      rw [Bool.and_eq_true]
      have hlr : rest.length ≤ n := by
        simp only [List.length_cons] at hl
        omega
      refine ⟨?_, ih rest hlr _⟩
      by_cases hdash : c = '-'
      · rw [if_pos (by simpa using hdash)]
        subst hdash
        by_cases hb : b
        · have happ : hyphApplies rest = false := by
            rcases ha : hyphApplies rest with _ | _
            · rfl
            · exact absurd (by simp [hb, ha]) hcond
          rw [hb]
          have hpres := hyphApplies_preserved happ
          rw [show isWordChar '-' = false from dash_not_word, hpres]
          rfl
        · simp only [Bool.not_eq_true] at hb
          rw [hb]
          rfl
      · rw [if_neg (by simpa using hdash)]

lemma dehyphenate_clean (s : Str) : hyphClean false (dehyphenate s) = true :=
  dehyphAux_clean s.length s (Nat.le_refl _) false

lemma dehyphenate_id {s : Str} (h : hyphClean false s = true) : dehyphenate s = s :=
  dehyphAux_id s false h


/-- The reversed string starts with `'-'` immediately followed by a word
character, i.e. the original ends with a word character then `'-'`. -/
def ewhR : Str → Bool
  | '-' :: a :: _ => isWordChar a
  | _ => false

/-- The string ends with a word character immediately followed by `'-'`. -/
def endsWordHyphen (l : Str) : Bool := ewhR l.reverse

/-- Paragraphs `p`, `q` in this order do not form a hyphenation-repair
site across the blank-line separator between them. -/
def safePair (p q : Str) : Prop := endsWordHyphen p = true → headWord q = false

/-- The lookbehind condition at a separator following text `u`, where `b`
is the scan state on entry to `u`. -/
def sepCond (u : Str) (b : Bool) : Bool :=
  if u = ['-'] then b else endsWordHyphen u

lemma ewhR_single (c : Char) : ewhR [c] = false := by
  rw [ewhR.eq_def]
  split
  · rename_i heq
    simp at heq
  · rfl

lemma ewhR_dash (a : Char) (t : Str) : ewhR ('-' :: a :: t) = isWordChar a := rfl

lemma ewhR_ne {x : Char} (y : Char) (t : Str) (hx : x ≠ '-') : ewhR (x :: y :: t) = false := by
  rw [ewhR.eq_def]
  split
  · rename_i heq
    injection heq with h1 _
    exact absurd h1 hx
  · rfl

lemma ewhR_pair (x y : Char) (t t2 : Str) : ewhR (x :: y :: t) = ewhR (x :: y :: t2) := by
  by_cases hx : x = '-'
  · subst hx
    rfl
  · rw [ewhR_ne y t hx, ewhR_ne y t2 hx]

lemma sepCond_dash (b : Bool) : sepCond ['-'] b = b := by
  unfold sepCond
  rw [if_pos rfl]

lemma sepCond_ne {u : Str} (b : Bool) (hu : u ≠ ['-']) : sepCond u b = endsWordHyphen u := by
  unfold sepCond
  rw [if_neg hu]

lemma endsWordHyphen_cons {c : Char} {rest : Str} (h2 : 2 ≤ rest.length) :
    endsWordHyphen (c :: rest) = endsWordHyphen rest := by
  rcases hrev : rest.reverse with _ | ⟨x, _ | ⟨y, w⟩⟩
  · have hx : rest = [] := by simpa using congrArg List.reverse hrev
    rw [hx] at h2
    simp only [List.length_nil] at h2
    omega
  · have hx : rest = [x] := by simpa using congrArg List.reverse hrev
    rw [hx] at h2
    simp only [List.length_cons, List.length_nil] at h2
    omega
  · unfold endsWordHyphen
    rw [show (c :: rest).reverse = rest.reverse ++ [c] from by simp, hrev]
    rw [show (x :: y :: w) ++ [c] = x :: y :: (w ++ [c]) from rfl]
    exact ewhR_pair x y (w ++ [c]) w

lemma word_not_ws {c : Char} (h : isWordChar c = true) : isPySpace c = false := by
  rcases hw : isPySpace c with _ | _
  · rfl
  · rw [ws_not_word hw] at h
    exact absurd h (by simp)

lemma headWord_congr {a b : Str} (h : a.head? = b.head?) : headWord a = headWord b := by
  rcases a with _ | ⟨x, xs⟩
  · rcases b with _ | ⟨y, ys⟩
    · rfl
    · simp at h
  · rcases b with _ | ⟨y, ys⟩
    · simp at h
    · simp only [List.head?_cons, Option.some.injEq] at h
      subst h
      rfl

lemma hyphApplies_eq (r : Str) :
    hyphApplies r
      = ((r.takeWhile isPySpace).contains '\n' && headWord (r.dropWhile isPySpace)) := by
  unfold hyphApplies
  rcases h : r.dropWhile isPySpace with _ | ⟨x, t⟩ <;> rfl

lemma contains_nl_append (t : Str) (X : Str) : (t ++ '\n' :: X).contains '\n' = true := by
  induction t with
  | nil => simp [List.contains_cons]
  | cons c cs ih => rw [List.cons_append, List.contains_cons, ih, Bool.or_true]


/-- Scanning a canonical paragraph body finds no repair site. -/
lemma hyphClean_of_clean : ∀ (u : Str) (b : Bool), WsOk u → NoPair u →
    headNotWs u.reverse = true → hyphClean b u = true := by
  intro u
  induction u with
  | nil => intro b _ _ _; rfl
  | cons c rest ih =>
    intro b hws hnp hlw
    show ((if c == '-' then !(b && hyphApplies rest) else true) &&
      hyphClean (isWordChar c) rest) = true
    rw [Bool.and_eq_true]
    constructor
    · by_cases hc : c = '-'
      · rw [if_pos (by simpa using hc)]
        have happ : hyphApplies rest = false := by
          rcases rest with _ | ⟨d, r2⟩
          · rfl
          · by_cases hd : isPySpace d = true
            · have hdsp : d = ' ' := hws d (by simp) hd
              rcases r2 with _ | ⟨e, r3⟩
              · exfalso
                have hlw2 : headNotWs ([c, d].reverse) = true := hlw
                rw [show ([c, d].reverse) = [d, c] from rfl] at hlw2
                simp only [headNotWs, Bool.not_eq_true'] at hlw2
                rw [hlw2] at hd
                exact absurd hd (by simp)
              · have hpair := (List.chain'_cons.mp (noPair_cons hnp)).1
                have he : isPySpace e = false := by
                  by_contra hee
                  exact hpair ⟨hd, by simpa using hee⟩
                rw [hyphApplies_eq, List.takeWhile_cons, if_pos hd,
                  List.takeWhile_cons, if_neg (by simp [he])]
                subst hdsp
                rw [show (([' '] : Str).contains '\n') = false from rfl, Bool.false_and]
            · rw [hyphApplies_eq, List.takeWhile_cons, if_neg hd]
              rw [show (([] : Str).contains '\n') = false from rfl, Bool.false_and]
        rw [happ]
        simp
      · rw [if_neg (by simpa using hc)]
    · refine ih (isWordChar c) (wsOk_cons hws) (noPair_cons hnp) ?_
      rcases rest with _ | ⟨d, r2⟩
      · rfl
      · have h2 : (c :: d :: r2).reverse = (d :: r2).reverse ++ [c] := by simp
        rw [h2, headNotWs_append_left _ (by simp)] at hlw
        exact hlw

/-- Scanning a canonical paragraph followed by a blank-line separator and
further hyphen-clean text finds no repair site when the junction is safe. -/
lemma hyphClean_sep : ∀ (u : Str) (b : Bool) (T : Str), WsOk u → NoPair u →
    headNotWs u.reverse = true → hyphClean false T = true →
    (sepCond u b = true → headWord (T.dropWhile isPySpace) = false) →
    hyphClean b (u ++ '\n' :: '\n' :: T) = true := by
  intro u
  induction u with
  | nil =>
    intro b T _ _ _ hT _
    show hyphClean b ('\n' :: '\n' :: T) = true
    simp only [hyphClean]
    rw [if_neg (by decide), if_neg (by decide),
      show isWordChar '\n' = false from by decide]
    simpa using hT
  | cons c rest ih =>
    intro b T hws hnp hlw hT hsc
    rw [List.cons_append]
    show ((if c == '-' then !(b && hyphApplies (rest ++ '\n' :: '\n' :: T)) else true) &&
      hyphClean (isWordChar c) (rest ++ '\n' :: '\n' :: T)) = true
    rw [Bool.and_eq_true]
    constructor
    · by_cases hc : c = '-'
      · subst hc
        rw [if_pos (by decide)]
        rcases rest with _ | ⟨d, r2⟩
        · have hb : b = true → headWord (T.dropWhile isPySpace) = false := by
            intro hb1
            exact hsc (by rw [sepCond_dash, hb1])
          cases b with
          | false => simp
          | true =>
            have hhw := hb rfl
            rw [List.nil_append, hyphApplies_eq]
            rw [List.takeWhile_cons, if_pos (by decide), List.takeWhile_cons,
              if_pos (by decide)]
            rw [List.dropWhile_cons, if_pos (by decide), List.dropWhile_cons,
              if_pos (by decide)]
            rw [hhw]
            simp
        · have happ : hyphApplies ((d :: r2) ++ '\n' :: '\n' :: T) = false := by
            rw [List.cons_append, hyphApplies_eq]
            by_cases hd : isPySpace d = true
            · have hdsp : d = ' ' := hws d (by simp) hd
              rcases r2 with _ | ⟨e, r3⟩
              · exfalso
                have hlw2 : headNotWs (['-', d].reverse) = true := hlw
                rw [show (['-', d].reverse) = [d, '-'] from rfl] at hlw2
                simp only [headNotWs, Bool.not_eq_true'] at hlw2
                rw [hlw2] at hd
                exact absurd hd (by simp)
              · have hpair := (List.chain'_cons.mp (noPair_cons hnp)).1
                have he : isPySpace e = false := by
                  by_contra hee
                  exact hpair ⟨hd, by simpa using hee⟩
                rw [List.cons_append, List.takeWhile_cons, if_pos hd,
                  List.takeWhile_cons, if_neg (by simp [he])]
                subst hdsp
                rw [show (([' '] : Str).contains '\n') = false from rfl, Bool.false_and]
            · rw [List.takeWhile_cons, if_neg hd]
              rw [show (([] : Str).contains '\n') = false from rfl, Bool.false_and]
          rw [happ]
          simp
      · rw [if_neg (by simpa using hc)]
    · refine ih (isWordChar c) T (wsOk_cons hws) (noPair_cons hnp) ?_ hT ?_
      · rcases rest with _ | ⟨d, r2⟩
        · rfl
        · have h2 : (c :: d :: r2).reverse = (d :: r2).reverse ++ [c] := by simp
          rw [h2, headNotWs_append_left _ (by simp)] at hlw
          exact hlw
      · intro hscr
        apply hsc
        rcases rest with _ | ⟨d, r2⟩
        · rw [sepCond_ne (isWordChar c) (by simp)] at hscr
          rw [show endsWordHyphen [] = false from rfl] at hscr
          exact absurd hscr (by simp)
        · rcases r2 with _ | ⟨e, r3⟩
          · by_cases hd : d = '-'
            · subst hd
              rw [sepCond_dash] at hscr
              rw [sepCond_ne b (by simp)]
              rw [show endsWordHyphen [c, '-'] = isWordChar c from rfl]
              exact hscr
            · rw [sepCond_ne (isWordChar c) (by simp [hd])] at hscr
              rw [show endsWordHyphen [d] = ewhR [d] from rfl, ewhR_single] at hscr
              exact absurd hscr (by simp)
          · rw [sepCond_ne (isWordChar c) (by simp)] at hscr
            rw [sepCond_ne b (by simp)]
            rw [endsWordHyphen_cons (by simp only [List.length_cons]; omega)]
            exact hscr

/-- A `"\n\n"`-joined list of canonical paragraphs with safe junctions is
hyphen-clean. -/
lemma hyphClean_joinNlNl : ∀ (qs : List Str), (∀ q ∈ qs, CleanPara q) →
    List.Chain' safePair qs → hyphClean false (joinNlNl qs) = true := by
  intro qs
  induction qs with
  | nil => intro _ _; rfl
  | cons q rest ih =>
    intro hcp hch
    rcases rest with _ | ⟨q2, rest2⟩
    · show hyphClean false q = true
      obtain ⟨_, hws, hnp, _, hlw⟩ := hcp q (by simp)
      exact hyphClean_of_clean q false hws hnp hlw
    · show hyphClean false (q ++ '\n' :: '\n' :: joinNlNl (q2 :: rest2)) = true
      obtain ⟨hne, hws, hnp, hhd, hlw⟩ := hcp q (by simp)
      have hT : hyphClean false (joinNlNl (q2 :: rest2)) = true :=
        ih (fun x hx => hcp x (List.mem_cons_of_mem q hx)) (List.chain'_cons'.mp hch).2
      refine hyphClean_sep q false _ hws hnp hlw hT ?_
      intro hsc
      have hewh : endsWordHyphen q = true := by
        by_cases hq1 : q = ['-']
        · rw [hq1, sepCond_dash] at hsc
          exact absurd hsc (by simp)
        · rw [sepCond_ne false hq1] at hsc
          exact hsc
      have hsafe : safePair q q2 := (List.chain'_cons'.mp hch).1 q2 (by simp)
      have hhw : headWord q2 = false := hsafe hewh
      obtain ⟨hne2, hws2, hnp2, hhd2, hlw2⟩ := hcp q2 (by simp)
      rcases q2 with _ | ⟨z, zs⟩
      · exact absurd rfl hne2
      · have hz : isPySpace z = false := by
          simpa [headNotWs] using hhd2
        have hsh : ∃ Y, joinNlNl ((z :: zs) :: rest2) = z :: Y := by
          rcases rest2 with _ | ⟨q3, rest3⟩
          · exact ⟨zs, rfl⟩
          · exact ⟨zs ++ '\n' :: '\n' :: joinNlNl (q3 :: rest3), rfl⟩
        obtain ⟨Y, hY⟩ := hsh
        rw [hY, List.dropWhile_cons, if_neg (by simp [hz])]
        exact hhw


lemma collapseWsAux_cons (b : Bool) (c : Char) (rest : Str) :
    collapseWsAux b (c :: rest)
      = if isPySpace c then
          (if b then collapseWsAux true rest else ' ' :: collapseWsAux true rest)
        else c :: collapseWsAux false rest := rfl

/-- The run state of the whitespace-collapse scan after consuming `xs`. -/
def csSt (b : Bool) (xs : Str) : Bool := xs.foldl (fun _ c => isPySpace c) b

lemma csSt_cons (b : Bool) (c : Char) (xs : Str) :
    csSt b (c :: xs) = csSt (isPySpace c) xs := rfl

lemma csSt_append_last (b : Bool) (xs : Str) (a : Char) :
    csSt b (xs ++ [a]) = isPySpace a := by
  induction xs generalizing b with
  | nil => rfl
  | cons c cs ih => exact ih (isPySpace c)

lemma csSt_all_ws_pos : ∀ (z : Str) (b : Bool), z ≠ [] → (∀ c ∈ z, isPySpace c = true) →
    csSt b z = true := by
  intro z
  induction z with
  | nil => intro b hz _; exact absurd rfl hz
  | cons c cs ih =>
    intro b _ h
    rw [csSt_cons]
    rcases cs with _ | ⟨d, ds⟩
    · exact h c (by simp)
    · exact ih (isPySpace c) (by simp) (fun x hx => h x (List.mem_cons_of_mem c hx))

lemma collapseWsAux_append : ∀ (xs : Str) (b : Bool) (ys : Str),
    collapseWsAux b (xs ++ ys) = collapseWsAux b xs ++ collapseWsAux (csSt b xs) ys := by
  intro xs
  induction xs with
  | nil => intro b ys; rfl
  | cons c cs ih =>
    intro b ys
    rw [List.cons_append, collapseWsAux_cons, collapseWsAux_cons, csSt_cons]
    by_cases hc : isPySpace c = true
    · rw [hc, if_pos rfl, if_pos rfl]
      by_cases hb : b = true
      · rw [hb, if_pos rfl, if_pos rfl, ih true]
      · rw [show b = false by simpa using hb, if_neg (by simp), if_neg (by simp),
          ih true, List.cons_append]
    · rw [show isPySpace c = false by simpa using hc, if_neg (by simp), if_neg (by simp),
        ih false, List.cons_append]

lemma collapseWsAux_true_all_ws {z : Str} (h : ∀ c ∈ z, isPySpace c = true) :
    collapseWsAux true z = [] := by
  induction z with
  | nil => rfl
  | cons c cs ih =>
    rw [collapseWsAux_cons, if_pos (h c (by simp)), if_pos rfl]
    exact ih (fun x hx => h x (List.mem_cons_of_mem c hx))

lemma collapseWsAux_false_all_ws {z : Str} (h : ∀ c ∈ z, isPySpace c = true) :
    collapseWsAux false z = if z.isEmpty then [] else [' '] := by
  rcases z with _ | ⟨c, cs⟩
  · rfl
  · rw [collapseWsAux_cons, if_pos (h c (by simp)), if_neg (by simp)]
    rw [collapseWsAux_true_all_ws (fun x hx => h x (List.mem_cons_of_mem c hx))]
    rfl

lemma dropWhile_append_of_ne {p : Char → Bool} : ∀ {l : Str}, l.dropWhile p ≠ [] →
    ∀ (y : Str), (l ++ y).dropWhile p = l.dropWhile p ++ y := by
  intro l
  induction l with
  | nil => intro h; exact absurd rfl h
  | cons c cs ih =>
    intro h y
    rw [List.cons_append, List.dropWhile_cons]
    by_cases hc : p c = true
    · rw [if_pos hc]
      rw [List.dropWhile_cons, if_pos hc] at h
      rw [List.dropWhile_cons, if_pos hc]
      exact ih h y
    · rw [if_neg hc, List.dropWhile_cons, if_neg hc, List.cons_append]

lemma dropWhile_ws_run {a : Str} (h : ∀ c ∈ a, isPySpace c = true) (y : Str) :
    (a ++ y).dropWhile isPySpace = y.dropWhile isPySpace := by
  induction a with
  | nil => rfl
  | cons c cs ih =>
    rw [List.cons_append, List.dropWhile_cons, if_pos (h c (by simp))]
    exact ih (fun x hx => h x (List.mem_cons_of_mem c hx))

lemma takeWhile_ws_run {a : Str} (h : ∀ c ∈ a, isPySpace c = true) (y : Str) :
    (a ++ y).takeWhile isPySpace = a ++ y.takeWhile isPySpace := by
  induction a with
  | nil => rfl
  | cons c cs ih =>
    rw [List.cons_append, List.takeWhile_cons, if_pos (h c (by simp)),
      ih (fun x hx => h x (List.mem_cons_of_mem c hx)), List.cons_append]

lemma dropTrailWs_append_ws {t : Str} (y : Str) (h : ∀ c ∈ t, isPySpace c = true) :
    dropTrailWs (y ++ t) = dropTrailWs y := by
  unfold dropTrailWs
  rw [List.reverse_append, dropWhile_ws_run (fun c hc => h c (List.mem_reverse.mp hc))]

lemma filter_collapseWsAux : ∀ (l : Str) (b : Bool),
    (collapseWsAux b l).filter (fun c => !isPySpace c) = l.filter (fun c => !isPySpace c) := by
  intro l
  induction l with
  | nil => intro b; rfl
  | cons c cs ih =>
    intro b
    rw [collapseWsAux_cons]
    by_cases hc : isPySpace c = true
    · rw [if_pos hc]
      have hrc : (c :: cs).filter (fun c => !isPySpace c) = cs.filter (fun c => !isPySpace c) := by
        rw [List.filter_cons, if_neg (by simp [hc])]
      rw [hrc]
      by_cases hb : b = true
      · rw [hb, if_pos rfl, ih]
      · rw [show b = false by simpa using hb, if_neg (by simp), List.filter_cons,
          if_neg (by decide), ih]
    · have hcf : isPySpace c = false := by simpa using hc
      rw [if_neg (by simp [hcf]), List.filter_cons, List.filter_cons,
        if_pos (by simp [hcf]), if_pos (by simp [hcf]), ih]

lemma filter_dropWhile_ws (l : Str) :
    (l.dropWhile isPySpace).filter (fun c => !isPySpace c)
      = l.filter (fun c => !isPySpace c) := by
  induction l with
  | nil => rfl
  | cons c cs ih =>
    rw [List.dropWhile_cons]
    by_cases hc : isPySpace c = true
    · rw [if_pos hc, List.filter_cons, if_neg (by simp [hc]), ih]
    · rw [if_neg hc]

lemma filter_dropTrailWs (l : Str) :
    (dropTrailWs l).filter (fun c => !isPySpace c) = l.filter (fun c => !isPySpace c) := by
  unfold dropTrailWs
  rw [List.filter_reverse, filter_dropWhile_ws, List.filter_reverse, List.reverse_reverse]

lemma filter_cleanLine (l : Str) :
    (cleanLine l).filter (fun c => !isPySpace c) = l.filter (fun c => !isPySpace c) := by
  unfold cleanLine stripWs collapseWs
  rw [filter_dropTrailWs, filter_dropWhile_ws, filter_collapseWsAux]

lemma filter_ex1 {p : Char → Bool} : ∀ (s : Str) (x : Char) (t : List Char),
    s.filter p = x :: t →
    ∃ w r, s = w ++ x :: r ∧ (∀ c ∈ w, p c = false) ∧ r.filter p = t := by
  intro s
  induction s with
  | nil => intro x t h; simp at h
  | cons c cs ih =>
    intro x t h
    rw [List.filter_cons] at h
    by_cases hc : p c = true
    · rw [if_pos hc] at h
      injection h with h1 h2
      subst h1
      exact ⟨[], cs, rfl, by simp, h2⟩
    · rw [if_neg hc] at h
      obtain ⟨w, r, hs, hw, hr⟩ := ih x t h
      refine ⟨c :: w, r, by rw [hs]; rfl, ?_, hr⟩
      intro d hd
      rcases List.mem_cons.mp hd with rfl | hd
      · simpa using hc
      · exact hw d hd


/-- The shape of a cleaned line around a trailing non-whitespace pair
`a … -` whose interior and tail are whitespace. -/
lemma cleanLine_shape (m : Str) (a : Char) (mid tail : Str)
    (ha : isPySpace a = false)
    (hmid : ∀ c ∈ mid, isPySpace c = true)
    (htail : ∀ c ∈ tail, isPySpace c = true) :
    cleanLine (m ++ a :: mid ++ '-' :: tail)
      = cleanLine (m ++ [a]) ++ (if mid.isEmpty then [] else [' ']) ++ ['-'] := by
  have hsplit : m ++ a :: mid ++ '-' :: tail = (m ++ [a]) ++ (mid ++ '-' :: tail) := by
    simp
  unfold cleanLine collapseWs
  rw [hsplit, collapseWsAux_append, csSt_append_last, ha]
  have hmidpart : collapseWsAux false (mid ++ '-' :: tail)
      = (if mid.isEmpty then [] else [' ']) ++ '-' :: collapseWsAux false tail := by
    rcases mid with _ | ⟨d, ds⟩
    · rw [List.nil_append, collapseWsAux_cons, if_neg (by decide)]
      rfl
    · rw [collapseWsAux_append, collapseWsAux_false_all_ws hmid,
        csSt_all_ws_pos _ false (by simp) hmid]
      rw [show collapseWsAux true ('-' :: tail) = '-' :: collapseWsAux false tail from by
        rw [collapseWsAux_cons, if_neg (by decide)]]
  rw [hmidpart]
  have hA : collapseWsAux false (m ++ [a]) = collapseWsAux false m ++ [a] := by
    rw [collapseWsAux_append]
    congr 1
    rw [collapseWsAux_cons, if_neg (by simp [ha])]
    rfl
  rw [hA]
  have htailall : ∀ c ∈ collapseWsAux false tail, isPySpace c = true := by
    intro c hc
    rw [collapseWsAux_all_space htail false c hc]
    decide
  unfold stripWs
  have hAne : (collapseWsAux false m ++ [a]).dropWhile isPySpace ≠ [] := by
    by_cases hm : (collapseWsAux false m).dropWhile isPySpace = []
    · rw [dropWhile_ws_run (List.dropWhile_eq_nil_iff.mp hm) [a],
        List.dropWhile_cons, if_neg (by simp [ha])]
      simp
    · rw [dropWhile_append_of_ne hm [a]]
      simp
  rw [dropWhile_append_of_ne hAne]
  have hgrp : (collapseWsAux false m ++ [a]).dropWhile isPySpace ++
      ((if mid.isEmpty then [] else [' ']) ++ '-' :: collapseWsAux false tail)
      = ((collapseWsAux false m ++ [a]).dropWhile isPySpace ++
        ((if mid.isEmpty then [] else [' ']) ++ ['-'])) ++ collapseWsAux false tail := by
    simp
  rw [hgrp, dropTrailWs_append_ws _ htailall]
  rw [dropTrailWs_id (by
    rw [lastNotWs_append_right _ (by simp)]
    rw [lastNotWs_append_right _ (by simp)]
    decide)]
  rw [dropTrailWs_id (by
    rcases hdw : (collapseWsAux false m).dropWhile isPySpace with _ | ⟨d, D⟩
    · rw [dropWhile_ws_run (List.dropWhile_eq_nil_iff.mp hdw) [a],
        List.dropWhile_cons, if_neg (by simp [ha])]
      simp [headNotWs, ha]
    · rw [dropWhile_append_of_ne (by rw [hdw]; simp) [a],
        lastNotWs_append_right _ (by simp)]
      simp [headNotWs, ha])]
  simp

/-- If a cleaned line ends with a word character directly followed by a
hyphen, the raw line ends with that adjacent pair followed only by
whitespace. -/
lemma cleanLine_endsWordHyphen {l : Str} (h : endsWordHyphen (cleanLine l) = true) :
    ∃ m a tail, l = m ++ a :: '-' :: tail ∧ isWordChar a = true ∧
      ∀ c ∈ tail, isPySpace c = true := by
  unfold endsWordHyphen at h
  rcases hrev : (cleanLine l).reverse with _ | ⟨x, _ | ⟨a0, w⟩⟩
  · rw [hrev] at h
    exact absurd h (by simp [ewhR])
  · rw [hrev, ewhR_single] at h
    exact absurd h (by simp)
  · rw [hrev] at h
    by_cases hx : x = '-'
    · subst hx
      rw [ewhR_dash] at h
      have ha0ws : isPySpace a0 = false := word_not_ws h
      have hfl : l.reverse.filter (fun c => !isPySpace c)
          = '-' :: a0 :: w.filter (fun c => !isPySpace c) := by
        rw [List.filter_reverse, ← filter_cleanLine, ← List.filter_reverse, hrev]
        rw [List.filter_cons, if_pos (by decide), List.filter_cons,
          if_pos (by simp [ha0ws])]
      obtain ⟨w1, r1, hlr, hw1, hr1⟩ := filter_ex1 l.reverse '-' _ hfl
      obtain ⟨w2, r2, hr1e, hw2, _⟩ := filter_ex1 r1 a0 _ hr1
      have hldec : l = r2.reverse ++ a0 :: w2.reverse ++ '-' :: w1.reverse := by
        have hll : l = (l.reverse).reverse := (List.reverse_reverse l).symm
        rw [hll, hlr, hr1e]
        simp
      have hw2ws : ∀ c ∈ w2.reverse, isPySpace c = true := by
        intro c hc
        have := hw2 c (List.mem_reverse.mp hc)
        simpa using this
      have hw1ws : ∀ c ∈ w1.reverse, isPySpace c = true := by
        intro c hc
        have := hw1 c (List.mem_reverse.mp hc)
        simpa using this
      have hw2nil : w2 = [] := by
        by_contra hne
        have hshape := cleanLine_shape r2.reverse a0 w2.reverse w1.reverse ha0ws hw2ws hw1ws
        rw [← hldec] at hshape
        rw [if_neg (by simp [List.isEmpty_iff, List.reverse_eq_nil_iff, hne])] at hshape
        have hrs := congrArg List.reverse hshape
        rw [hrev] at hrs
        simp only [List.reverse_append, List.reverse_cons, List.reverse_nil,
          List.nil_append, List.append_assoc, List.cons_append, List.singleton_append,
          List.cons.injEq] at hrs
        obtain ⟨_, ha0sp, _⟩ := hrs
        rw [ha0sp] at h
        exact absurd h (by decide)
      subst hw2nil
      refine ⟨r2.reverse, a0, w1.reverse, ?_, h, hw1ws⟩
      simpa using hldec
    · rw [ewhR_ne a0 w hx] at h
      exact absurd h (by simp)

/-- The first character of a non-empty cleaned line is the first
non-whitespace character of the raw line. -/
lemma cleanLine_head {l : Str} (h : cleanLine l ≠ []) :
    (cleanLine l).head? = (l.dropWhile isPySpace).head? := by
  rcases hd : l.dropWhile isPySpace with _ | ⟨c, r2⟩
  · exact absurd ((cleanLine_eq_nil_iff l).mpr (List.dropWhile_eq_nil_iff.mp hd)) h
  · have hc : isPySpace c = false := by
      have hh := headNotWs_dropWhileWs l
      rw [hd] at hh
      simpa [headNotWs] using hh
    have hsplit : l = l.takeWhile isPySpace ++ c :: r2 := by
      have hTD : l = List.takeWhile isPySpace l ++ List.dropWhile isPySpace l :=
        (List.takeWhile_append_dropWhile isPySpace l).symm
      conv_lhs => rw [hTD]
      rw [hd]
    have hrun : ∀ x ∈ l.takeWhile isPySpace, isPySpace x = true :=
      fun x hx => List.mem_takeWhile_imp hx
    unfold cleanLine collapseWs
    conv_lhs => rw [hsplit]
    rw [collapseWsAux_append, collapseWsAux_false_all_ws hrun]
    rw [show collapseWsAux (csSt false (l.takeWhile isPySpace)) (c :: r2)
        = c :: collapseWsAux false r2 from by
      rw [collapseWsAux_cons, if_neg (by simp [hc])]]
    unfold stripWs
    have hPws : ∀ x ∈ (if (l.takeWhile isPySpace).isEmpty then ([] : Str) else [' ']),
        isPySpace x = true := by
      split
      · intro x hx
        simp at hx
      · intro x hx
        simp only [List.mem_singleton] at hx
        subst hx
        decide
    rw [dropWhile_ws_run hPws, List.dropWhile_cons, if_neg (by simp [hc])]
    rcases hdt : dropTrailWs (c :: collapseWsAux false r2) with _ | ⟨d, D⟩
    · exfalso
      have hdec := dropTrailWs_decomp (c :: collapseWsAux false r2)
      rw [hdt, List.nil_append] at hdec
      have hcm : c ∈ ((c :: collapseWsAux false r2).reverse.takeWhile isPySpace).reverse := by
        rw [hdec]
        simp
      have hcw := List.mem_takeWhile_imp (List.mem_reverse.mp hcm)
      rw [hc] at hcw
      exact absurd hcw (by simp)
    · have hdec := dropTrailWs_decomp (c :: collapseWsAux false r2)
      rw [hdt] at hdec
      have hdc : d = c := by
        have := congrArg List.head? hdec
        simpa using this
      rw [hdc]
      rfl


lemma joinSp_append_single : ∀ (buf : List Str) (q : Str),
    joinSp (buf ++ [q]) = if buf.isEmpty then q else joinSp buf ++ ' ' :: q := by
  intro buf
  induction buf with
  | nil => intro q; rfl
  | cons b bs ih =>
    intro q
    rw [if_neg (by simp)]
    rcases bs with _ | ⟨c, cs⟩
    · rfl
    · show b ++ ' ' :: joinSp ((c :: cs) ++ [q]) = (b ++ ' ' :: joinSp (c :: cs)) ++ ' ' :: q
      rw [ih q, if_neg (by simp)]
      simp

lemma endsWordHyphen_append_space {q : Str} (hq : q ≠ []) (X : Str) :
    endsWordHyphen (X ++ ' ' :: q) = endsWordHyphen q := by
  rcases hrev : q.reverse with _ | ⟨x, _ | ⟨y, w⟩⟩
  · exact absurd (by simpa using congrArg List.reverse hrev) hq
  · have hq1 : q = [x] := by simpa using congrArg List.reverse hrev
    subst hq1
    rw [show endsWordHyphen [x] = ewhR [x] from rfl, ewhR_single]
    unfold endsWordHyphen
    rw [show (X ++ ' ' :: [x]).reverse = x :: ' ' :: X.reverse from by simp]
    by_cases hx : x = '-'
    · subst hx
      rw [ewhR_dash]
      decide
    · rw [ewhR_ne _ _ hx]
  · unfold endsWordHyphen
    rw [show (X ++ ' ' :: q).reverse = q.reverse ++ ' ' :: X.reverse from by simp, hrev]
    rw [show (x :: y :: w) ++ ' ' :: X.reverse = x :: y :: (w ++ ' ' :: X.reverse) from rfl]
    exact ewhR_pair x y _ w

/-- The first output paragraph of the grouping loop run from a non-empty
buffer starts with the first character of the buffer head. -/
lemma groupParas_head : ∀ (cls : List Str) (b0 : Str) (rest0 : List Str),
    (∀ b ∈ b0 :: rest0, CleanPara b) →
    (∀ x ∈ cls, x = [] ∨ CleanPara x) →
    ∀ q qs2, groupParas (b0 :: rest0) cls = q :: qs2 → q.head? = b0.head? := by
  intro cls
  induction cls with
  | nil =>
    intro b0 rest0 hbuf _ q qs2 hq
    unfold groupParas at hq
    rw [if_neg (by simp)] at hq
    injection hq with h1 _
    subst h1
    have hclean := joinSp_clean (b0 :: rest0) (by simp) hbuf
    rw [stripWs_id hclean.2.2.2.1 hclean.2.2.2.2]
    rcases rest0 with _ | ⟨r, rs⟩
    · rfl
    · show (b0 ++ ' ' :: joinSp (r :: rs)).head? = b0.head?
      rcases b0 with _ | ⟨z, zs⟩
      · exact absurd rfl (hbuf [] (by simp)).1
      · rfl
  | cons line cls2 ih =>
    intro b0 rest0 hbuf hcls q qs2 hq
    unfold groupParas at hq
    by_cases hl : line.isEmpty
    · rw [if_pos hl, if_neg (by simp)] at hq
      injection hq with h1 _
      subst h1
      have hclean := joinSp_clean (b0 :: rest0) (by simp) hbuf
      rw [stripWs_id hclean.2.2.2.1 hclean.2.2.2.2]
      rcases rest0 with _ | ⟨r, rs⟩
      · rfl
      · show (b0 ++ ' ' :: joinSp (r :: rs)).head? = b0.head?
        rcases b0 with _ | ⟨z, zs⟩
        · exact absurd rfl (hbuf [] (by simp)).1
        · rfl
    · rw [if_neg hl] at hq
      have hline : CleanPara line := by
        rcases hcls line (by simp) with h | h
        · exact absurd h (by simpa [List.isEmpty_iff] using hl)
        · exact h
      refine ih b0 (rest0 ++ [line]) ?_
        (fun x hx => hcls x (List.mem_cons_of_mem _ hx)) q qs2 ?_
      · intro b hb
        rcases List.mem_cons.mp hb with rfl | hb
        · exact hbuf b (by simp)
        · rcases List.mem_append.mp hb with hb | hb
          · exact hbuf b (List.mem_cons_of_mem _ hb)
          · simp only [List.mem_singleton] at hb
            subst hb
            exact hline
      · rw [show (b0 :: rest0) ++ [line] = b0 :: (rest0 ++ [line]) from rfl] at hq
        exact hq

/-- The first paragraph produced from raw lines starts with the first
non-whitespace character of the joined remaining text. -/
lemma groupParas_nil_head : ∀ (ls : List Str) (q : Str) (qs2 : List Str),
    groupParas [] (ls.map cleanLine) = q :: qs2 →
    q.head? = ((joinNl ls).dropWhile isPySpace).head? := by
  intro ls
  induction ls with
  | nil =>
    intro q qs2 hq
    simp [groupParas] at hq
  | cons l rest ih =>
    intro q qs2 hq
    rw [List.map_cons] at hq
    unfold groupParas at hq
    by_cases hl : (cleanLine l).isEmpty
    · rw [if_pos hl] at hq
      simp only [List.isEmpty_nil] at hq
      rw [if_pos trivial] at hq
      have hall : ∀ c ∈ l, isPySpace c = true :=
        (cleanLine_eq_nil_iff l).mp (by simpa [List.isEmpty_iff] using hl)
      rcases rest with _ | ⟨r, rs⟩
      · simp [groupParas] at hq
      · rw [ih q qs2 hq]
        rw [show joinNl (l :: r :: rs) = l ++ '\n' :: joinNl (r :: rs) from rfl]
        rw [dropWhile_ws_run hall, List.dropWhile_cons, if_pos (by decide)]
    · rw [if_neg hl] at hq
      have hcp : CleanPara (cleanLine l) := by
        rcases cleanLine_clean l with h | h
        · exact absurd h (by simpa [List.isEmpty_iff] using hl)
        · exact h
      have hhd := groupParas_head (rest.map cleanLine) (cleanLine l) []
        (by
          intro b hb
          simp only [List.mem_singleton] at hb
          subst hb
          exact hcp)
        (by
          intro x hx
          rcases List.mem_map.mp hx with ⟨y, _, rfl⟩
          exact cleanLine_clean y)
        q qs2 (by simpa using hq)
      rw [hhd, cleanLine_head (by simpa [List.isEmpty_iff] using hl)]
      rcases rest with _ | ⟨r, rs⟩
      · rfl
      · rw [show joinNl (l :: r :: rs) = l ++ '\n' :: joinNl (r :: rs) from rfl]
        have hne : l.dropWhile isPySpace ≠ [] := by
          intro h0
          exact (by simpa [List.isEmpty_iff] using hl : ¬cleanLine l = [])
            ((cleanLine_eq_nil_iff l).mpr (List.dropWhile_eq_nil_iff.mp h0))
        rw [dropWhile_append_of_ne hne]
        rcases hdw : l.dropWhile isPySpace with _ | ⟨d, D⟩
        · exact absurd hdw hne
        · rfl

/-- Over hyphen-clean raw text, consecutive paragraphs produced by the
grouping loop never form a repair site across their separator. -/
lemma chain_safePair : ∀ (ls : List Str) (buf : List Str),
    hyphClean false (joinNl ls) = true →
    (∀ b ∈ buf, CleanPara b) →
    (endsWordHyphen (joinSp buf) = true →
      headWord ((joinNl ls).dropWhile isPySpace) = false) →
    List.Chain' safePair (groupParas buf (ls.map cleanLine)) := by
  intro ls
  induction ls with
  | nil =>
    intro buf _ hbuf _
    show List.Chain' safePair (groupParas buf [])
    unfold groupParas
    by_cases hb : buf.isEmpty
    · rw [if_pos hb]
      exact List.chain'_nil
    · rw [if_neg hb]
      exact List.chain'_singleton _
  | cons l rest ih =>
    intro buf hD hbuf hjunc
    have hDrest : hyphClean false (joinNl rest) = true := by
      rcases rest with _ | ⟨r, rs⟩
      · rfl
      · have hre : joinNl (l :: r :: rs) = (l ++ ['\n']) ++ joinNl (r :: rs) := by
          show l ++ '\n' :: joinNl (r :: rs) = _
          simp
        rw [hre] at hD
        have happ := hyphClean_append hD
        rw [hcSt_append_last, show isWordChar '\n' = false from by decide] at happ
        exact happ
    rw [List.map_cons]
    unfold groupParas
    by_cases hl : (cleanLine l).isEmpty
    · rw [if_pos hl]
      have hallws : ∀ c ∈ l, isPySpace c = true :=
        (cleanLine_eq_nil_iff l).mp (by simpa [List.isEmpty_iff] using hl)
      by_cases hb : buf.isEmpty
      · rw [if_pos hb]
        refine ih [] hDrest (by simp) ?_
        intro h0
        have hbe : buf = [] := by simpa [List.isEmpty_iff] using hb
        exact absurd h0 (by decide)
      · rw [if_neg hb]
        refine List.chain'_cons'.mpr ⟨?_, ?_⟩
        · intro y hy hewh
          have hbufne : buf ≠ [] := by simpa [List.isEmpty_iff] using hb
          have hclean := joinSp_clean buf hbufne hbuf
          rw [stripWs_id hclean.2.2.2.1 hclean.2.2.2.2] at hewh
          have hhw := hjunc hewh
          rcases hout : groupParas [] (rest.map cleanLine) with _ | ⟨y0, t⟩
          · rw [hout] at hy
            simp at hy
          · rw [hout] at hy
            simp only [List.head?_cons, Option.mem_def, Option.some.injEq] at hy
            subst hy
            have hy0 := groupParas_nil_head rest y0 t hout
            have hEq : ((joinNl (l :: rest)).dropWhile isPySpace).head?
                = ((joinNl rest).dropWhile isPySpace).head? := by
              rcases rest with _ | ⟨r, rs⟩
              · simp [groupParas] at hout
              · rw [show joinNl (l :: r :: rs) = l ++ '\n' :: joinNl (r :: rs) from rfl,
                  dropWhile_ws_run hallws, List.dropWhile_cons, if_pos (by decide)]
            have hcongr : headWord y0
                = headWord ((joinNl (l :: rest)).dropWhile isPySpace) :=
              headWord_congr (by rw [hy0, hEq])
            rw [hcongr]
            exact hhw
        · refine ih [] hDrest (by simp) ?_
          intro h0
          exact absurd h0 (by decide)
    · rw [if_neg hl]
      have hclne : cleanLine l ≠ [] := by simpa [List.isEmpty_iff] using hl
      refine ih (buf ++ [cleanLine l]) hDrest ?_ ?_
      · intro b hbm
        rcases List.mem_append.mp hbm with hbm | hbm
        · exact hbuf b hbm
        · simp only [List.mem_singleton] at hbm
          subst hbm
          rcases cleanLine_clean l with h | h
          · exact absurd h hclne
          · exact h
      · intro hewh
        have hewhcl : endsWordHyphen (cleanLine l) = true := by
          rw [joinSp_append_single] at hewh
          by_cases hb : buf.isEmpty
          · rw [if_pos hb] at hewh
            exact hewh
          · rw [if_neg hb] at hewh
            rw [endsWordHyphen_append_space hclne] at hewh
            exact hewh
        obtain ⟨m, a, tail, hldec, hwa, htail⟩ := cleanLine_endsWordHyphen hewhcl
        rcases rest with _ | ⟨r, rs⟩
        · rfl
        · have hJ : joinNl (l :: r :: rs)
              = (m ++ [a]) ++ '-' :: (tail ++ '\n' :: joinNl (r :: rs)) := by
            rw [show joinNl (l :: r :: rs) = l ++ '\n' :: joinNl (r :: rs) from rfl, hldec]
            simp
          rw [hJ] at hD
          have hsc := hyphClean_append hD
          rw [hcSt_append_last, hwa] at hsc
          simp only [hyphClean] at hsc
          rw [if_pos (by decide), Bool.and_eq_true] at hsc
          have happ : hyphApplies (tail ++ '\n' :: joinNl (r :: rs)) = false := by
            simpa using hsc.1
          rw [hyphApplies_eq, takeWhile_ws_run htail, dropWhile_ws_run htail,
            List.takeWhile_cons, if_pos (by decide), List.dropWhile_cons,
            if_pos (by decide)] at happ
          rw [contains_nl_append, Bool.true_and] at happ
          exact happ


lemma mem_joinNlNl {c : Char} : ∀ (qs : List Str), c ∈ joinNlNl qs →
    (∃ q ∈ qs, c ∈ q) ∨ c = '\n' := by
  intro qs
  induction qs with
  | nil =>
    intro h
    simp [joinNlNl] at h
  | cons q rest ih =>
    intro h
    rcases rest with _ | ⟨q2, rest2⟩
    · exact Or.inl ⟨q, by simp, h⟩
    · rw [show joinNlNl (q :: q2 :: rest2)
          = q ++ '\n' :: '\n' :: joinNlNl (q2 :: rest2) from rfl] at h
      rcases List.mem_append.mp h with h | h
      · exact Or.inl ⟨q, by simp, h⟩
      · rcases List.mem_cons.mp h with rfl | h
        · exact Or.inr rfl
        · rcases List.mem_cons.mp h with rfl | h
          · exact Or.inr rfl
          · rcases ih h with ⟨q3, hq3, hm⟩ | h
            · exact Or.inl ⟨q3, List.mem_cons_of_mem q hq3, hm⟩
            · exact Or.inr h

lemma replaceCRLF_cons_ne {c : Char} (rest : Str) (hc : c ≠ '\r') :
    replaceCRLF (c :: rest) = c :: replaceCRLF rest := by
  rw [replaceCRLF.eq_def]
  split
  · rename_i heq
    simp at heq
  · rename_i heq
    injection heq with h1 _
    exact absurd h1 hc
  · rename_i heq
    injection heq with h1 h2
    subst h1
    subst h2
    rfl

lemma replaceCRLF_id : ∀ {s : Str}, '\r' ∉ s → replaceCRLF s = s := by
  intro s
  induction s with
  | nil => intro _; rfl
  | cons c cs ih =>
    intro h
    rw [replaceCRLF_cons_ne cs (fun hcc => h (hcc ▸ List.mem_cons_self c cs)),
      ih (fun hm => h (List.mem_cons_of_mem c hm))]

lemma replaceCR_cons_ne {c : Char} (rest : Str) (hc : c ≠ '\r') :
    replaceCR (c :: rest) = c :: replaceCR rest := by
  rw [replaceCR.eq_def]
  split
  · rename_i heq
    simp at heq
  · rename_i heq
    injection heq with h1 _
    exact absurd h1 hc
  · rename_i heq
    injection heq with h1 h2
    subst h1
    subst h2
    rfl

lemma replaceCR_id : ∀ {s : Str}, '\r' ∉ s → replaceCR s = s := by
  intro s
  induction s with
  | nil => intro _; rfl
  | cons c cs ih =>
    intro h
    rw [replaceCR_cons_ne cs (fun hcc => h (hcc ▸ List.mem_cons_self c cs)),
      ih (fun hm => h (List.mem_cons_of_mem c hm))]

lemma unifyNewlines_id {s : Str} (h : '\r' ∉ s) : unifyNewlines s = s := by
  unfold unifyNewlines
  rw [replaceCRLF_id h, replaceCR_id h]

lemma map_stripWs_id : ∀ (qs : List Str), (∀ q ∈ qs, CleanPara q) →
    qs.map stripWs = qs := by
  intro qs
  induction qs with
  | nil => intro _; rfl
  | cons q rest ih =>
    intro h
    have hq := h q (by simp)
    rw [List.map_cons, stripWs_id hq.2.2.2.1 hq.2.2.2.2,
      ih (fun x hx => h x (List.mem_cons_of_mem q hx))]

lemma filter_nonempty_id : ∀ (qs : List Str), (∀ q ∈ qs, q ≠ []) →
    qs.filter (fun p => !p.isEmpty) = qs := by
  intro qs
  induction qs with
  | nil => intro _; rfl
  | cons q rest ih =>
    intro h
    rw [List.filter_cons, if_pos (by simp [List.isEmpty_iff, h q (by simp)]),
      ih (fun x hx => h x (List.mem_cons_of_mem q hx))]

lemma normalize_eq (t : Str) :
    normalize_page_text t
      = joinNlNl ((groupParas []
          ((splitNl (dehyphenate (unifyNewlines t))).map cleanLine)).filter
            (fun p => !p.isEmpty)) := rfl

/-- **C9.** Page-text normalization is idempotent: applying
`normalize_page_text` to its own output returns that output unchanged;
moreover every paragraph recovered by `split_paragraphs` from the
normalized output is non-empty, every whitespace character in it is a
single space `' '`, and no two whitespace characters are adjacent — no
whitespace run longer than one space remains. -/
theorem c9_normalize_idempotent (t : Str) :
    normalize_page_text (normalize_page_text t) = normalize_page_text t ∧
    ∀ p ∈ split_paragraphs (normalize_page_text t), p ≠ [] ∧ WsOk p ∧ NoPair p := by
  have hDclean : hyphClean false (dehyphenate (unifyNewlines t)) = true :=
    dehyphenate_clean _
  have hjoin : joinNl (splitNl (dehyphenate (unifyNewlines t)))
      = dehyphenate (unifyNewlines t) := joinNl_splitNl _
  have hCP : ∀ q ∈ groupParas [] ((splitNl (dehyphenate (unifyNewlines t))).map cleanLine),
      CleanPara q := by
    refine groupParas_clean _ [] (by simp) ?_
    intro x hx
    rcases List.mem_map.mp hx with ⟨y, _, rfl⟩
    exact cleanLine_clean y
  have hchain : List.Chain' safePair
      (groupParas [] ((splitNl (dehyphenate (unifyNewlines t))).map cleanLine)) := by
    refine chain_safePair _ [] ?_ (by simp) ?_
    · rw [hjoin]
      exact hDclean
    · intro h0
      exact absurd h0 (by decide)
  have hfilt : (groupParas []
        ((splitNl (dehyphenate (unifyNewlines t))).map cleanLine)).filter
          (fun p => !p.isEmpty)
      = groupParas [] ((splitNl (dehyphenate (unifyNewlines t))).map cleanLine) :=
    filter_nonempty_id _ (fun q hq => (hCP q hq).1)
  have hN : normalize_page_text t
      = joinNlNl (groupParas []
          ((splitNl (dehyphenate (unifyNewlines t))).map cleanLine)) := by
    rw [normalize_eq, hfilt]
  set qs0 := groupParas [] ((splitNl (dehyphenate (unifyNewlines t))).map cleanLine)
    with hqs0
  have hnl : ∀ q ∈ qs0, '\n' ∉ q := by
    intro q hq hm
    have hsp := (hCP q hq).2.1 '\n' hm (by decide)
    exact absurd hsp (by decide)
  have hNclean : hyphClean false (joinNlNl qs0) = true :=
    hyphClean_joinNlNl qs0 hCP hchain
  have hnoCR : '\r' ∉ joinNlNl qs0 := by
    intro hm
    rcases mem_joinNlNl qs0 hm with ⟨q, hq, hqm⟩ | h
    · have hsp := (hCP q hq).2.1 '\r' hqm (by decide)
      exact absurd hsp (by decide)
    · exact absurd h (by decide)
  have hidem : normalize_page_text (joinNlNl qs0) = joinNlNl qs0 := by
    rw [normalize_eq, unifyNewlines_id hnoCR, dehyphenate_id hNclean,
      splitNl_joinNlNl qs0 hnl, groupParas_expl qs0 hCP, hfilt]
  constructor
  · rw [hN, hidem]
  · intro p hp
    rw [hN] at hp
    unfold split_paragraphs at hp
    rw [splitNlNl_joinNlNl qs0 hnl] at hp
    by_cases hq0 : qs0 = []
    · rw [if_pos hq0] at hp
      rw [show (([[]] : List Str).map stripWs).filter (fun p => !p.isEmpty) = []
        from rfl] at hp
      simp at hp
    · rw [if_neg hq0, map_stripWs_id qs0 hCP, hfilt] at hp
      obtain ⟨hpne, hws, hnp, _, _⟩ := hCP p hp
      exact ⟨hpne, hws, hnp⟩

def c9wT : Str := "Hy-\nphen  test\n\nDONE.".data

def c9wP : Str := "Hyphen test".data

/-- Witness: `c9_normalize_idempotent` applied at a concrete page text
whose normalization joins a hyphenation break and collapses a double
space, with the paragraph membership hypothesis discharged by
computation. -/
theorem c9_normalize_idempotent_witness :
    normalize_page_text (normalize_page_text c9wT) = normalize_page_text c9wT ∧
    (c9wP ≠ [] ∧ WsOk c9wP ∧ NoPair c9wP) := by
  have h := c9_normalize_idempotent c9wT
  exact ⟨h.1, h.2 c9wP (by decide)⟩

end Ingest
